import Mathlib

/-!
Shallow embedding of `src/librustdoc/clean/inline.rs` (rustdoc's external
documentation inlining engine) and proofs about it.

The external collaborators (the symbol/type database `tcx`/`cstore`, the
stability lookup, the reachability oracle, and the generic `Clean`
conversions) are modelled as an oracle record `Ctx` of pure functions; the
mutable session state (`cx.renderinfo`, `cx.all_crate_impls`) is threaded
explicitly as a `SessionState`.  Panics (`panic!`, `unwrap`, `unreachable!`)
are modelled as `Except.error`; recursion through the symbol graph is made
total with an explicit fuel parameter (fuel exhaustion is also an
`Except.error`, so every `.ok` result corresponds to a real terminating run
of the source code).
-/

/-- Crate number.  `0` plays the role of `LOCAL_CRATE`. -/
abbrev CrateNum := Nat

/-- `rustc::hir::def_id::DefId`: a crate number plus an in-crate index. -/
structure DefId where
  krate : CrateNum
  index : Nat
deriving DecidableEq, Repr

/-- `DefId::is_local`: the definition belongs to the local crate. -/
def DefId.isLocal (d : DefId) : Bool := d.krate == 0

/-- `rustc::hir::def::Def`: the kind-tagged definition reference.  `other`
stands for all remaining kinds, which `try_inline_def` rejects. -/
inductive Def where
  | traitD (did : DefId)
  | fnD (did : DefId)
  | structD (did : DefId)
  | tyAliasD (did : DefId)
  | enumD (did : DefId)
  | variantD (did : DefId)
  | modD (did : DefId)
  | foreignModD (did : DefId)
  | staticD (did : DefId) (mutable : Bool)
  | constD (did : DefId)
  | associatedConstD (did : DefId)
  | otherD (did : DefId)
deriving DecidableEq, Repr

/-- `Def::def_id()`. -/
def Def.defId : Def → DefId
  | .traitD d | .fnD d | .structD d | .tyAliasD d | .enumD d | .variantD d
  | .modD d | .foreignModD d | .staticD d _ | .constD d
  | .associatedConstD d | .otherD d => d

/-- `rustc::middle::cstore::DefLike`. -/
inductive DefLike where
  | dlDef (d : Def)
  | dlImpl (did : DefId)
  | dlField
deriving DecidableEq, Repr

/-- `ty::Visibility`, as compared against `ty::Visibility::Public`. -/
inductive TyVisibility where
  | publicVis
  | restrictedVis
deriving DecidableEq, Repr

/-- One entry of `cstore.item_children` / `crate_top_level_items`. -/
structure ChildItem where
  defLike : DefLike
  vis : TyVisibility
deriving DecidableEq, Repr

/-- `clean::Visibility`. -/
inductive CVisibility where
  | publicV
  | inherited
deriving DecidableEq, Repr

/-- `clean::TypeKind`, the kind tag recorded with a fully-qualified name. -/
inductive TypeKind where
  | typeTrait | typeFunction | typeStruct | typeTypedef | typeEnum
  | typeModule | typeStatic | typeConst
deriving DecidableEq, Repr

/-- `hir::Unsafety`; renamed to avoid a clash with Lean keywords. -/
inductive Safety where
  | normal
  | danger
deriving DecidableEq, Repr

/-- `clean::Mutability`. -/
inductive Mutability where
  | mutableM
  | immutableM
deriving DecidableEq, Repr

/-- `clean::ImplPolarity`. -/
inductive ImplPolarity where
  | positive
  | negative
deriving DecidableEq, Repr

/-- `doctree::StructType`. -/
inductive StructType where
  | unitS | newtypeS | tupleS | plainS
deriving DecidableEq, Repr

/-- `ty::VariantKind`. -/
inductive VariantKind where
  | structVK | tupleVK | unitVK
deriving DecidableEq, Repr

/-- Attributes, stability and deprecation records, function declarations,
ABIs, self-types and raw field/expression data are opaque to this core; they
are produced and consumed by the excluded `Clean` collaborators, so they are
modelled as plain numbers. -/
abbrev Attr := Nat

abbrev FnDecl := Nat

abbrev Abi := Nat

abbrev SelfTy := Nat

abbrev FieldData := Nat

abbrev ConstExpr := Nat

abbrev StabInfo := Nat

abbrev DeprInfo := Nat

/-- The fragment of `clean::Type` this core inspects: `Generic`, `QPath`,
`ResolvedPath` and `Primitive` are matched on by the generics purifier and
the impl harvester; everything else is `otherT`. -/
inductive CType where
  | generic (s : String)
  | resolvedPath (did : DefId)
  | qpath (name : String) (selfType : CType) (trait_ : CType)
  | primitive (p : Nat)
  | otherT (tag : Nat)
deriving DecidableEq, Repr

/-- Modelled from the spec: the `GetDefId` capability of the excluded clean
data model (`Type::def_id`), which resolves a cleaned type to the identity of
its defining item: only a resolved path carries one. -/
def CType.defIdOf : CType → Option DefId
  | .resolvedPath did => some did
  | _ => none

/-- Modelled from the spec: `Type::primitive_type` of the excluded clean data
model, which reports whether a cleaned type is a built-in/primitive type. -/
def CType.primitiveType : CType → Option Nat
  | .primitive p => some p
  | _ => none

/-- `clean::TyParamBound`. -/
inductive TyParamBound where
  | regionBound (lt : Nat)
  | traitBound (trait_ : CType)
deriving DecidableEq, Repr

/-- `clean::WherePredicate`. -/
inductive WherePredicate where
  | boundPredicate (ty : CType) (bounds : List TyParamBound)
  | regionPredicate (lt : Nat)
  | eqPredicate (lhs rhs : CType)
deriving DecidableEq, Repr

/-- `clean::Generics` (the where-predicate list is the part this core
filters; type parameters and lifetimes ride along opaquely). -/
structure Generics where
  typeParams : List Nat
  lifetimes : List Nat
  wherePredicates : List WherePredicate
deriving DecidableEq, Repr

/-- `clean::Typedef`. -/
structure Typedef where
  type_ : CType
  generics : Generics
deriving DecidableEq, Repr

/-- `clean::Static`. -/
structure Static where
  type_ : CType
  mutability : Mutability
  expr : String
deriving DecidableEq, Repr

/-- `clean::Constant`. -/
structure Constant where
  type_ : CType
  expr : String
deriving DecidableEq, Repr

/-- `clean::Function`. -/
structure Function where
  decl : FnDecl
  generics : Generics
  safety : Safety
  constness : Bool
  abi : Abi
deriving DecidableEq, Repr

/-- `clean::DefaultImpl`. -/
structure DefaultImpl where
  safety : Safety
  trait_ : CType
deriving DecidableEq, Repr

mutual
/-- `clean::Item`: the uniform document item envelope.  Source locations are
always `Span::empty()` for inlined items, so the field is omitted. -/
inductive Item where
  | mk (name : Option String) (attrs : List Attr) (inner : ItemEnum)
      (visibility : Option CVisibility) (stability : Option StabInfo)
      (deprecation : Option DeprInfo) (defId : DefId)

/-- `clean::ItemEnum`: the kind-specific payloads this core produces.
Payloads that contain child items (module, trait, struct, enum, impl) inline
their fields here because Lean structures cannot be mutually recursive with
inductives. -/
inductive ItemEnum where
  | moduleItem (items : List Item) (isCrate : Bool)
  | traitItem (safety : Safety) (generics : Generics) (items : List Item)
      (bounds : List TyParamBound)
  | functionItem (f : Function)
  | structItem (structType : StructType) (generics : Generics)
      (fields : List Item) (fieldsStripped : Bool)
  | enumItem (generics : Generics) (variantsStripped : Bool)
      (variants : List Item)
  | typedefItem (td : Typedef) (isAssoc : Bool)
  | staticItem (s : Static)
  | constantItem (c : Constant)
  | implItem (safety : Safety) (derived : Bool) (provided : List String)
      (trait_ : Option CType) (for_ : CType) (generics : Generics)
      (items : List Item) (polarity : Option ImplPolarity)
  | defaultImplItem (d : DefaultImpl)
  | associatedConstItem (type_ : CType) (dfl : Option String)
  | methodItem (safety : Safety) (constness : Bool) (decl : FnDecl)
      (self_ : SelfTy) (generics : Generics) (abi : Abi)
  | tyMethodItem (safety : Safety) (decl : FnDecl) (self_ : SelfTy)
      (generics : Generics) (abi : Abi)
  | otherItem (tag : Nat)
end

/-- Field accessor for `Item.name`. -/
def Item.name : Item → Option String
  | .mk n _ _ _ _ _ _ => n

/-- Field accessor for `Item.attrs`. -/
def Item.attrs : Item → List Attr
  | .mk _ a _ _ _ _ _ => a

/-- Field accessor for `Item.inner`. -/
def Item.inner : Item → ItemEnum
  | .mk _ _ i _ _ _ _ => i

/-- Field accessor for `Item.visibility`. -/
def Item.visibility : Item → Option CVisibility
  | .mk _ _ _ v _ _ _ => v

/-- Field accessor for `Item.defId`. -/
def Item.defId : Item → DefId
  | .mk _ _ _ _ _ _ d => d

/-- Replace the kind payload of an item, keeping the rest of the envelope
(the `item.inner = ...` assignment in `build_impl`'s method translation). -/
def Item.withInner : Item → ItemEnum → Item
  | .mk n a _ v s dep d, i => .mk n a i v s dep d

/-- Overwrite the display name of an item (the rename application in
`try_inline`). -/
def Item.withName : Item → Option String → Item
  | .mk _ a i v s dep d, n => .mk n a i v s dep d

/-- `ty::VariantDefData`: field list and variant kind, as consumed by
`build_struct`. -/
structure VariantData where
  fields : List FieldData
  kind : VariantKind
deriving DecidableEq, Repr

/-- `ty::AdtDefData` for enums: the variant list. -/
structure AdtDefData where
  variants : List VariantData
deriving DecidableEq, Repr

/-- The fragment of `ty::TypeVariants` (`t.ty.sty`) this core matches on. -/
inductive TySty where
  | tyFnDef (sig : Nat) (safety : Safety) (abi : Abi)
  | tyEnum (edef : AdtDefData)
  | tyOther (tag : Nat)
deriving DecidableEq, Repr

/-- `rustc` `Ty`. -/
structure Ty where
  sty : TySty
deriving DecidableEq, Repr

/-- `ty::TypeScheme` as returned by `tcx.lookup_item_type`. -/
structure TypeScheme where
  ty : Ty
deriving DecidableEq, Repr

/-- `ty::TraitRef`, as returned by `tcx.impl_trait_ref`. -/
structure TraitRef where
  did : DefId
deriving DecidableEq, Repr

/-- `ty::ParamSpace`: which substitution space a generics clean runs in. -/
inductive ParamSpace where
  | typeSpace
  | fnSpace
deriving DecidableEq, Repr

/-- The data of a `ty::Method` consumed by `build_impl`'s member
translation: its visibility plus an opaque payload fed to `method.clean`. -/
structure MethodData where
  vis : TyVisibility
  raw : Nat
deriving DecidableEq, Repr

/-- `ty::AssociatedConst` data consumed by the member translation. -/
structure AssocConstData where
  defId : DefId
  name : String
  hasValue : Bool
deriving DecidableEq, Repr

/-- `ty::AssociatedType` data consumed by the member translation. -/
structure AssocTyData where
  defId : DefId
  name : String
  ty : Option Ty
deriving DecidableEq, Repr

/-- `ty::ImplOrTraitItem`. -/
inductive ImplOrTraitItem where
  | constTraitItem (c : AssocConstData)
  | methodTraitItem (m : MethodData)
  | typeTraitItem (t : AssocTyData)
deriving DecidableEq, Repr

/-- The oracle bundling the external collaborators: the symbol/type database
(`tcx`, `tcx.sess.cstore`), the stability and reachability services, the
constant renderer and the `Clean` conversion capability.  All are pure
functions of their inputs, matching the spec's synchronous-oracle model. -/
structure Ctx where
  hasTcx : Bool
  defMap : Nat → Option Def
  tupleStructCtor : DefId → Bool
  itemName : DefId → String
  getAttrs : DefId → List Attr
  lookupStability : DefId → Option StabInfo
  lookupDeprecation : DefId → Option DeprInfo
  crateName : CrateNum → String
  defPath : DefId → List String
  traitDefSafety : DefId → Safety
  traitItemsClean : DefId → List Item
  lookupCleanGenerics : DefId → ParamSpace → Generics
  isConstFn : DefId → Bool
  lookupItemType : DefId → TypeScheme
  cleanTy : Ty → CType
  fnSigClean : DefId → Nat → FnDecl
  adtStructVariant : DefId → VariantData
  cleanFields : List FieldData → List Item
  isTypedef : DefId → Bool
  cleanEnumVariants : AdtDefData → List Item
  lookupConstById : DefId → Option (ConstExpr × Option Ty)
  exprToString : ConstExpr → String
  exprSpanToSrc : ConstExpr → String
  inherentImpls : DefId → Option (List DefId)
  crateTopLevelItems : CrateNum → List ChildItem
  itemChildren : DefId → List ChildItem
  implTraitRef : DefId → Option TraitRef
  isDocReachable : DefId → Bool
  isDefaultImpl : DefId → Bool
  cleanTraitRef : TraitRef → TyParamBound
  implItemIds : DefId → List DefId
  implOrTraitItem : DefId → ImplOrTraitItem
  cleanMethod : MethodData → Item
  cleanTypeScheme : Ty → Typedef
  traitImplPolarity : DefId → Option ImplPolarity
  derefTraitDid : Option DefId
  providedTraitMethods : DefId → List String
  detectDerived : List Attr → Bool
  derefTargetsOf : List Item → List DefId

/-- Association-list lookup (first matching key), modelling `HashMap::get`. -/
def alLookup {κ α : Type} [DecidableEq κ] : List (κ × α) → κ → Option α
  | [], _ => none
  | (k', v) :: rest, k => if k' = k then some v else alLookup rest k

/-- Association-list insert with replace semantics, modelling
`HashMap::insert` (the first occurrence of the key is overwritten). -/
def alInsert {κ α : Type} [DecidableEq κ] : List (κ × α) → κ → α → List (κ × α)
  | [], k, v => [(k, v)]
  | (k', v') :: rest, k, v =>
      if k' = k then (k, v) :: rest else (k', v') :: alInsert rest k v

/-- Set insert for the impl-inlined set, modelling `HashSet::insert` (a
no-op when the element is already present). -/
def insertDid (l : List DefId) (d : DefId) : List DefId :=
  if d ∈ l then l else d :: l

/-- `core::RenderInfo`: the impl-inlined set and the fully-qualified-name
cache. -/
structure RenderInfo where
  inlined : List DefId
  externalPaths : List (DefId × (List String × TypeKind))

/-- The session state threaded by reference through every call:
`cx.renderinfo` and `cx.all_crate_impls`, plus a ghost log `crateWalks`
that records one entry per full-crate top-level walk performed by
`build_impls` (pure instrumentation: it influences nothing). -/
structure SessionState where
  renderinfo : RenderInfo
  allCrateImpls : List (CrateNum × List Item)
  crateWalks : List CrateNum

/-- A fresh session state. -/
def SessionState.empty : SessionState :=
  { renderinfo := { inlined := [], externalPaths := [] }
    allCrateImpls := []
    crateWalks := [] }

/-- `load_attrs`: fetch and clean the attribute list of a definition. -/
def loadAttrs (ctx : Ctx) (did : DefId) : List Attr :=
  ctx.getAttrs did

/-- `record_extern_fqn`: record the crate-qualified path of a definition in
the external-paths cache (a no-op when there is no `tcx`). -/
def recordExternFqn (ctx : Ctx) (st : SessionState) (did : DefId)
    (kind : TypeKind) : SessionState :=
  if ctx.hasTcx then
    let fqn := ctx.crateName did.krate :: ctx.defPath did
    { st with renderinfo :=
        { st.renderinfo with
          externalPaths := alInsert st.renderinfo.externalPaths did (fqn, kind) } }
  else st

/-- The retain predicate of `filter_non_trait_generics`: `false` exactly on
a bound predicate whose type is a qualified path with self-type the literal
`Self` type variable and qualifying trait resolved to `trait_did`. -/
def keepNonTraitPred (traitDid : DefId) : WherePredicate → Bool
  | .boundPredicate (.qpath _ (.generic s) (.resolvedPath did)) _ =>
      s ≠ "Self" || did ≠ traitDid
  | _ => true

/-- `filter_non_trait_generics`: drop the associated-type elaboration
predicates that restate constraints belonging to the associated types. -/
def filterNonTraitGenerics (traitDid : DefId) (g : Generics) : Generics :=
  { g with wherePredicates := g.wherePredicates.filter (keepNonTraitPred traitDid) }

/-- The match of `separate_supertrait_bounds`: a bound predicate on the bare
`Self` type variable, whose bound list is the supertrait-bound payload. -/
def selfBoundsOf : WherePredicate → Option (List TyParamBound)
  | .boundPredicate (.generic s) bounds => if s = "Self" then some bounds else none
  | _ => none

/-- `separate_supertrait_bounds`: retain every predicate that is not a bare
`Self : Bound` predicate, and collect the bounds of the dropped ones, in
order, as the explicit supertrait-bound list. -/
def separateSupertraitBounds (g : Generics) : Generics × List TyParamBound :=
  let tyBounds := g.wherePredicates.foldl
    (fun acc p => match selfBoundsOf p with
      | some bs => acc ++ bs
      | none => acc) []
  ({ g with wherePredicates := g.wherePredicates.filter (fun p => (selfBoundsOf p).isNone) },
   tyBounds)

/-- `clean::Trait`. -/
structure Trait where
  safety : Safety
  generics : Generics
  items : List Item
  bounds : List TyParamBound

/-- `build_external_trait`: clean the trait's generics, purify them with the
two filters, and package the trait. -/
def buildExternalTrait (ctx : Ctx) (did : DefId) : Trait :=
  let traitItems := ctx.traitItemsClean did
  let generics := ctx.lookupCleanGenerics did .typeSpace
  let generics := filterNonTraitGenerics did generics
  let (generics, supertraitBounds) := separateSupertraitBounds generics
  { safety := ctx.traitDefSafety did
    generics := generics
    items := traitItems
    bounds := supertraitBounds }

/-- `build_external_function`: panics (`"bad function"`) when the database
hands back non-function-shaped type data. -/
def buildExternalFunction (ctx : Ctx) (did : DefId) : Except String Function :=
  let t := ctx.lookupItemType did
  match t.ty.sty with
  | .tyFnDef sig safety abi =>
      let constness := ctx.isConstFn did
      .ok { decl := ctx.fnSigClean did sig
            generics := ctx.lookupCleanGenerics did .fnSpace
            safety := safety
            constness := constness
            abi := abi }
  | _ => .error "bad function"

/-- `build_struct`: classify the struct shape from its field list and
variant kind. -/
def buildStruct (ctx : Ctx) (did : DefId) : StructType × Generics × List Item :=
  let variant := ctx.adtStructVariant did
  let shape :=
    match variant.fields, variant.kind with
    | [], _ => StructType.unitS
    | [_], .tupleVK => StructType.newtypeS
    | _ :: _, .tupleVK => StructType.tupleS
    | _, _ => StructType.plainS
  (shape, ctx.lookupCleanGenerics did .typeSpace, ctx.cleanFields variant.fields)

/-- `build_type`: a definition whose underlying type is an enum and whose
typedef flag is false becomes an enum payload carrying all cleaned variants;
everything else becomes a typedef payload with the resolved target type. -/
def buildType (ctx : Ctx) (did : DefId) : ItemEnum :=
  match (ctx.lookupItemType did).ty.sty with
  | .tyEnum edef =>
      if !ctx.isTypedef did then
        .enumItem (ctx.lookupCleanGenerics did .typeSpace) false
          (ctx.cleanEnumVariants edef)
      else
        .typedefItem
          { type_ := ctx.cleanTy (ctx.lookupItemType did).ty
            generics := ctx.lookupCleanGenerics did .typeSpace } false
  | _ =>
      .typedefItem
        { type_ := ctx.cleanTy (ctx.lookupItemType did).ty
          generics := ctx.lookupCleanGenerics did .typeSpace } false

/-- `build_const`: panics when the constant-lookup service has no value for
the definition; otherwise renders the literal value to a snippet. -/
def buildConst (ctx : Ctx) (did : DefId) : Except String Constant :=
  match ctx.lookupConstById did with
  | none => .error "expected lookup_const_by_id to succeed"
  | some (expr, ty) =>
      .ok { type_ := match ty with
              | some t => ctx.cleanTy t
              | none => ctx.cleanTy (ctx.lookupItemType did).ty
            expr := ctx.exprToString expr }

/-- `build_static`: the expression text is the fixed three-newline string
that triggers the renderer's definition links. -/
def buildStatic (ctx : Ctx) (did : DefId) (mutable : Bool) : Static :=
  { type_ := ctx.cleanTy (ctx.lookupItemType did).ty
    mutability := if mutable then .mutableM else .immutableM
    expr := "\n\n\n" }

/-- Translate one member of an impl into a document sub-item (the
`filter_map` closure in `build_impl`).  `hasTrait` is
`associated_trait.is_some()`.  `none` models the closure returning `None`
(a private method of an inherent impl); errors model the closure's panics. -/
def translateImplMember (ctx : Ctx) (hasTrait : Bool) (memberId : DefId) :
    Except String (Option Item) :=
  match ctx.implOrTraitItem memberId with
  | .constTraitItem ac => do
      let did := ac.defId
      let typeScheme := ctx.lookupItemType did
      let dfl ←
        if ac.hasValue then
          match ctx.lookupConstById did with
          | none => Except.error "unwrap failed: lookup_const_by_id"
          | some (e, _) => Except.ok (some (ctx.exprSpanToSrc e))
        else Except.ok none
      Except.ok (some (Item.mk (some ac.name) []
        (.associatedConstItem (ctx.cleanTy typeScheme.ty) dfl)
        none (ctx.lookupStability did) (ctx.lookupDeprecation did) did))
  | .methodTraitItem m =>
      if m.vis != .publicVis && !hasTrait then Except.ok none
      else
        let item := ctx.cleanMethod m
        match item.inner with
        | .tyMethodItem safety decl self_ generics abi =>
            let constness := ctx.isConstFn memberId
            Except.ok (some (item.withInner
              (.methodItem safety constness decl self_ generics abi)))
        | _ => Except.error "not a tymethod"
  | .typeTraitItem aty =>
      match aty.ty with
      | none => Except.error "unwrap failed: associated type has no ty"
      | some ty =>
          let typedef := ctx.cleanTypeScheme ty
          Except.ok (some (Item.mk (some aty.name) []
            (.typedefItem typedef true)
            none (ctx.lookupStability aty.defId) (ctx.lookupDeprecation aty.defId)
            aty.defId))

/-- Run the member translation over all member ids of an impl, keeping the
items the closure produces. -/
def translateImplMembers (ctx : Ctx) (hasTrait : Bool) :
    List DefId → Except String (List Item)
  | [] => .ok []
  | mid :: rest => do
      let head ← translateImplMember ctx hasTrait mid
      let tail ← translateImplMembers ctx hasTrait rest
      .ok (match head with
           | some i => i :: tail
           | none => tail)

/-- The removal predicate of `build_impls`' staging filter: an impl item
whose implementing type resolves to `did` or is a built-in primitive type.
Non-impl staging entries are never removed (the `_ => continue` arm). -/
def harvestPred (did : DefId) (it : Item) : Bool :=
  match it.inner with
  | .implItem _ _ _ _ for_ _ _ _ =>
      for_.defIdOf == some did || for_.primitiveType.isSome
  | _ => false

/-- `Vec::swap_remove(i)`: overwrite index `i` with the last element and
drop the last position. -/
def swapRemoveAt (l : List Item) (i : Nat) : List Item :=
  match l.getLast? with
  | none => l
  | some x => (l.set i x).dropLast

/-- The reverse-index removal loop of `build_impls`
(`for i in (0..candidates.len()).rev()`), examining index `i - 1` down to
`0`; returns the surviving staging list and the removed entries in removal
order. -/
def harvestStep (pred : Item → Bool) :
    Nat → List Item → List Item → List Item × List Item
  | 0, cand, out => (cand, out)
  | i + 1, cand, out =>
    match cand.get? i with
    | none => harvestStep pred i cand out
    | some it =>
      if pred it then harvestStep pred i (swapRemoveAt cand i) (out ++ [it])
      else harvestStep pred i cand out

/-- Insert a definition identity into the impl-inlined set, updating the
session state (`cx.renderinfo.borrow_mut().inlined.insert(did)`). -/
def markInlined (st : SessionState) (did : DefId) : SessionState :=
  { st with renderinfo :=
      { st.renderinfo with inlined := insertDid st.renderinfo.inlined did } }

/-- Build the uniform item envelope pushed by `try_inline_def` (lines
120-129 of the source): database-provided name, loaded attributes, public
visibility, stability and deprecation lookups, empty source. -/
def mkEnvelope (ctx : Ctx) (did : DefId) (inner : ItemEnum) : Item :=
  .mk (some (ctx.itemName did)) (loadAttrs ctx did) inner
    (some .publicV) (ctx.lookupStability did) (ctx.lookupDeprecation did) did

/-- The common tail of `try_inline_def`'s successful branches: mark the
definition inlined and append the envelope to the side-effect items. -/
def finishInline (ctx : Ctx) (st : SessionState) (did : DefId)
    (ret : List Item) (inner : ItemEnum) : Option (List Item) × SessionState :=
  (some (ret ++ [mkEnvelope ctx did inner]), markInlined st did)

/-- The reachability guard on an impl's implemented trait (lines 302-306):
true exactly when the impl implements a trait that is not doc-reachable. -/
def traitNotDocReachable (ctx : Ctx) (t : Option TraitRef) : Bool :=
  match t with
  | some tr => !ctx.isDocReachable tr.did
  | none => false

/-- The reachability guard on the implementing type (lines 332-338): true
exactly when the cleaned type resolves to an identity that is not
doc-reachable. -/
def typeNotDocReachable (ctx : Ctx) (t : CType) : Bool :=
  match t.defIdOf with
  | some fdid => !ctx.isDocReachable fdid
  | none => false

/-- The minimal item emitted for a compiler-defaulted impl (lines 309-327);
`associated_trait.as_ref().unwrap()` panics when the impl has no trait
reference, and the `RegionBound` arm is `unreachable!`. -/
def mkDefaultImplItem (ctx : Ctx) (did : DefId) (attrs : List Attr)
    (associatedTrait : Option TraitRef) : Except String Item :=
  match associatedTrait with
  | none => .error "unwrap failed: default impl has no trait ref"
  | some tr =>
    match ctx.cleanTraitRef tr with
    | .traitBound t =>
        .ok (Item.mk none attrs
          (.defaultImplItem { safety := .normal, trait_ := t })
          (some .inherited) (ctx.lookupStability did)
          (ctx.lookupDeprecation did) did)
    | .regionBound _ => .error "unreachable: region bound as impl trait"

/-- The cleaned implemented-trait reference (lines 422-427); the
`RegionBound` arm is `unreachable!`. -/
def cleanImplTrait (ctx : Ctx) (associatedTrait : Option TraitRef) :
    Except String (Option CType) :=
  match associatedTrait with
  | none => .ok none
  | some tr =>
    match ctx.cleanTraitRef tr with
    | .traitBound t => .ok (some t)
    | .regionBound _ => .error "unreachable: region bound as impl trait"

/-- The finished impl item appended by `build_impl` (lines 432-457),
including the derive detection, the provided-trait-method names and the
polarity. -/
def mkImplItem (ctx : Ctx) (did : DefId) (attrs : List Attr)
    (trait_ : Option CType) (for_ : CType) (traitItems : List Item) : Item :=
  let provided :=
    match trait_.bind CType.defIdOf with
    | some tdid => ctx.providedTraitMethods tdid
    | none => []
  Item.mk none attrs
    (.implItem .normal (ctx.detectDerived attrs) provided trait_ for_
      (ctx.lookupCleanGenerics did .typeSpace) traitItems
      (ctx.traitImplPolarity did))
    (some .inherited) (ctx.lookupStability did) (ctx.lookupDeprecation did) did

/-- The final stage of `build_impls` (lines 272-286 of the source): look up
the crate's staging list (`unwrap` panics when absent), run the reverse
swap-remove loop, store the survivors back and append the removed entries to
the output. -/
def harvestFinish (ctx : Ctx) (did : DefId) (impls : List Item)
    (st : SessionState) : Except String (List Item × SessionState) :=
  match alLookup st.allCrateImpls did.krate with
  | none => .error "unwrap failed: all_crate_impls has no entry for crate"
  | some candidates =>
      let (remaining, removed) :=
        harvestStep (harvestPred did) candidates.length candidates []
      .ok (impls ++ removed,
        { st with allCrateImpls := alInsert st.allCrateImpls did.krate remaining })

mutual

/-- `try_inline_def`: dispatch an external definition by kind, record its
fully-qualified name, build the payload (harvesting impls as a side effect
for struct/alias/enum), mark the identity inlined and wrap the payload in
the uniform envelope.  `none` models Rust's `None` (kind not inlinable). -/
def tryInlineDef (ctx : Ctx) (fuel : Nat) (d : Def) (st : SessionState) :
    Except String (Option (List Item) × SessionState) :=
  match fuel with
  | 0 => .error "fuel exhausted"
  | f + 1 =>
    let did := d.defId
    match d with
    | .traitD tdid =>
        let st := recordExternFqn ctx st tdid .typeTrait
        let t := buildExternalTrait ctx tdid
        .ok (finishInline ctx st did []
          (.traitItem t.safety t.generics t.items t.bounds))
    | .fnD fdid =>
        let st := recordExternFqn ctx st fdid .typeFunction
        match buildExternalFunction ctx fdid with
        | .error e => .error e
        | .ok fn => .ok (finishInline ctx st did [] (.functionItem fn))
    | .structD sdid =>
        if ctx.tupleStructCtor sdid then .ok (none, st)
        else do
          let st := recordExternFqn ctx st sdid .typeStruct
          let (impls, st) ← buildImpls ctx f sdid st
          let (shape, gens, fields) := buildStruct ctx sdid
          .ok (finishInline ctx st did impls (.structItem shape gens fields false))
    | .tyAliasD adid => do
        let st := recordExternFqn ctx st adid .typeTypedef
        let (impls, st) ← buildImpls ctx f adid st
        .ok (finishInline ctx st did impls (buildType ctx adid))
    | .enumD edid => do
        let st := recordExternFqn ctx st edid .typeEnum
        let (impls, st) ← buildImpls ctx f edid st
        .ok (finishInline ctx st did impls (buildType ctx edid))
    | .variantD _ => .ok (some [], st)
    | .modD mdid => do
        let st := recordExternFqn ctx st mdid .typeModule
        let (items, st) ← buildModule ctx f mdid st
        .ok (finishInline ctx st did [] (.moduleItem items false))
    | .staticD sdid mtbl =>
        let st := recordExternFqn ctx st sdid .typeStatic
        .ok (finishInline ctx st did [] (.staticItem (buildStatic ctx sdid mtbl)))
    | .constD cdid =>
        let st := recordExternFqn ctx st cdid .typeConst
        match buildConst ctx cdid with
        | .error e => .error e
        | .ok c => .ok (finishInline ctx st did [] (.constantItem c))
    | .associatedConstD cdid =>
        let st := recordExternFqn ctx st cdid .typeConst
        match buildConst ctx cdid with
        | .error e => .error e
        | .ok c => .ok (finishInline ctx st did [] (.constantItem c))
    | .foreignModD _ => .ok (none, st)
    | .otherD _ => .ok (none, st)

/-- `build_module`: run `fill_in` on an empty accumulator; the caller wraps
the items in a module payload with `is_crate = false`. -/
def buildModule (ctx : Ctx) (fuel : Nat) (did : DefId) (st : SessionState) :
    Except String (List Item × SessionState) :=
  match fuel with
  | 0 => .error "fuel exhausted"
  | f + 1 => fillIn ctx f did [] st

/-- `fill_in`: walk the children of a module with a fresh per-call visited
set, splicing the dispatcher's output into the accumulator. -/
def fillIn (ctx : Ctx) (fuel : Nat) (did : DefId) (items : List Item)
    (st : SessionState) : Except String (List Item × SessionState) :=
  match fuel with
  | 0 => .error "fuel exhausted"
  | f + 1 => fillInLoop ctx f (ctx.itemChildren did) [] items st

/-- The child loop of `fill_in`: a foreign-module wrapper is flattened by a
recursive `fill_in` call (fresh visited set), a public definition not yet
visited in this scan is dispatched, impls and non-public children are
skipped, and a field child panics. -/
def fillInLoop (ctx : Ctx) (fuel : Nat) (children : List ChildItem)
    (visited : List Def) (items : List Item) (st : SessionState) :
    Except String (List Item × SessionState) :=
  match fuel with
  | 0 => .error "fuel exhausted"
  | f + 1 =>
    match children with
    | [] => .ok (items, st)
    | c :: rest =>
      match c.defLike with
      | .dlDef (.foreignModD fdid) => do
          let (items, st) ← fillIn ctx f fdid items st
          fillInLoop ctx f rest visited items st
      | .dlDef d =>
          if c.vis = .publicVis then
            if d ∈ visited then fillInLoop ctx f rest visited items st
            else do
              let (res, st) ← tryInlineDef ctx f d st
              fillInLoop ctx f rest (d :: visited) (items ++ res.getD []) st
          else fillInLoop ctx f rest visited items st
      | .dlImpl _ => fillInLoop ctx f rest visited items st
      | .dlField => .error "unimplemented field"

/-- `build_impls`: build the type's inherent impls, perform the one-time
full-crate walk into the per-crate staging cache when this crate has not
been seen, then move every staging entry claimed by the removal predicate
into the result. -/
def buildImpls (ctx : Ctx) (fuel : Nat) (did : DefId) (st : SessionState) :
    Except String (List Item × SessionState) :=
  match fuel with
  | 0 => .error "fuel exhausted"
  | f + 1 => do
    let (impls, st) ← buildInherent ctx f did st
    let ((), st) ← crateWalkOnce ctx f did.krate st
    harvestFinish ctx did impls st

/-- The inherent stage of `build_impls` (lines 233-240): trigger the
database's lazy inherent-impl population (an external side effect with no
observable trace here) and build each inherent impl. -/
def buildInherent (ctx : Ctx) (fuel : Nat) (did : DefId) (st : SessionState) :
    Except String (List Item × SessionState) :=
  match fuel with
  | 0 => .error "fuel exhausted"
  | f + 1 =>
    match ctx.inherentImpls did with
    | some dids => buildImplList ctx f dids [] st
    | none => .ok ([], st)

/-- The one-time full-crate walk stage of `build_impls` (lines 250-270): if
the crate has no staging entry yet, walk its top-level items through
`populate_impls` and store the result under the crate key.  The ghost
`crateWalks` log records that the walk ran. -/
def crateWalkOnce (ctx : Ctx) (fuel : Nat) (krate : CrateNum)
    (st : SessionState) : Except String (Unit × SessionState) :=
  match fuel with
  | 0 => .error "fuel exhausted"
  | f + 1 =>
    if (alLookup st.allCrateImpls krate).isNone then do
      let st := { st with crateWalks := st.crateWalks ++ [krate] }
      let (walkImpls, st) ← populateLoop ctx f (ctx.crateTopLevelItems krate) [] st
      .ok ((), { st with allCrateImpls := alInsert st.allCrateImpls krate walkImpls })
    else .ok ((), st)

/-- The inherent-impl loop of `build_impls`: run `build_impl` for each impl
identity, accumulating into the output list. -/
def buildImplList (ctx : Ctx) (fuel : Nat) (dids : List DefId)
    (impls : List Item) (st : SessionState) : Except String (List Item × SessionState) :=
  match fuel with
  | 0 => .error "fuel exhausted"
  | f + 1 =>
    match dids with
    | [] => .ok (impls, st)
    | d :: rest => do
        let (impls, st) ← buildImpl ctx f d impls st
        buildImplList ctx f rest impls st

/-- `populate_impls`, folded over a child list: an impl child is built into
the staging accumulator, a module child is recursed into, everything else
is ignored. -/
def populateLoop (ctx : Ctx) (fuel : Nat) (children : List ChildItem)
    (impls : List Item) (st : SessionState) : Except String (List Item × SessionState) :=
  match fuel with
  | 0 => .error "fuel exhausted"
  | f + 1 =>
    match children with
    | [] => .ok (impls, st)
    | c :: rest =>
      match c.defLike with
      | .dlImpl idid => do
          let (impls, st) ← buildImpl ctx f idid impls st
          populateLoop ctx f rest impls st
      | .dlDef (.modD mdid) => do
          let (impls, st) ← populateLoop ctx f (ctx.itemChildren mdid) impls st
          populateLoop ctx f rest impls st
      | _ => populateLoop ctx f rest impls st

/-- Modelled from the spec: the external propagate-deref-target-impls
operation (`super::build_deref_target_impls`, which lives outside this
source file).  Fed an impl's member list, it surfaces methods reachable via
deref-coercion by harvesting the impls of each deref target type identity
the member list exposes; the extraction of those target identities is the
excluded collaborator `derefTargetsOf`. -/
def buildDerefTargets (ctx : Ctx) (fuel : Nat) (targets : List DefId)
    (ret : List Item) (st : SessionState) : Except String (List Item × SessionState) :=
  match fuel with
  | 0 => .error "fuel exhausted"
  | f + 1 =>
    match targets with
    | [] => .ok (ret, st)
    | t :: rest => do
        let (extra, st) ← buildImpls ctx f t st
        buildDerefTargets ctx f rest (ret ++ extra) st

/-- `build_impl`: dedup-guarded construction of one impl item into `ret`.
The guard checks and updates the session impl-inlined set; an impl whose
trait or implementing type is not doc-reachable is dropped silently; a
defaulted impl produces a minimal item; otherwise every member is
translated, deref-target impls are propagated, and the finished impl item
is appended. -/
def buildImpl (ctx : Ctx) (fuel : Nat) (did : DefId) (ret : List Item)
    (st : SessionState) : Except String (List Item × SessionState) :=
  match fuel with
  | 0 => .error "fuel exhausted"
  | f + 1 =>
    if did ∈ st.renderinfo.inlined then .ok (ret, st)
    else
      let st := markInlined st did
      let attrs := loadAttrs ctx did
      let associatedTrait := ctx.implTraitRef did
      if traitNotDocReachable ctx associatedTrait then .ok (ret, st)
      else if ctx.isDefaultImpl did then do
        let it ← mkDefaultImplItem ctx did attrs associatedTrait
        .ok (ret ++ [it], st)
      else
        let for_ := ctx.cleanTy (ctx.lookupItemType did).ty
        if typeNotDocReachable ctx for_ then .ok (ret, st)
        else do
          let traitItems ← translateImplMembers ctx associatedTrait.isSome
            (ctx.implItemIds did)
          let trait_ ← cleanImplTrait ctx associatedTrait
          let (ret, st) ←
            if trait_.bind CType.defIdOf = ctx.derefTraitDid then
              buildDerefTargets ctx f (ctx.derefTargetsOf traitItems) ret st
            else (.ok (ret, st) : Except String (List Item × SessionState))
          .ok (ret ++ [mkImplItem ctx did attrs trait_ for_ traitItems], st)

end

/-- `try_inline`: the public entry point.  Resolve the node id; a locally
owned definition is not inlined; otherwise dispatch by kind and, when a
rename is supplied, overwrite the name of every produced item that carries
one. -/
def tryInline (ctx : Ctx) (fuel : Nat) (id : Nat) (into : Option String)
    (st : SessionState) : Except String (Option (List Item) × SessionState) :=
  if !ctx.hasTcx then .ok (none, st)
  else
    match ctx.defMap id with
    | none => .ok (none, st)
    | some d =>
      let did := d.defId
      if did.isLocal then .ok (none, st)
      else do
        let (res, st) ← tryInlineDef ctx fuel d st
        let res := res.map (fun vec => vec.map (fun item =>
          match into with
          | some newName =>
              if item.name.isSome then item.withName (some newName) else item
          | none => item))
        .ok (res, st)

/-- The spec-side formulation of the per-call dedup guarantee: demote to
non-public every public definition child that was already seen — either in
`seen` or earlier in the same list.  Foreign-module wrappers, impls, fields
and non-public children are untouched.  Walking the original list with the
visited set is then shown equal to walking the masked list, which contains
each public definition at most once. -/
def maskVisited (seen : List Def) : List ChildItem → List ChildItem
  | [] => []
  | c :: rest =>
    match c.defLike with
    | .dlDef (.foreignModD _) => c :: maskVisited seen rest
    | .dlDef d =>
        if c.vis = .publicVis then
          if d ∈ seen then
            ⟨c.defLike, .restrictedVis⟩ :: maskVisited seen rest
          else c :: maskVisited (d :: seen) rest
        else c :: maskVisited seen rest
    | _ => c :: maskVisited seen rest

/-- The public definition children of a child list (the ones the walker
dispatches), excluding foreign-module wrappers. -/
def publicDefs : List ChildItem → List Def
  | [] => []
  | c :: rest =>
    match c.defLike with
    | .dlDef (.foreignModD _) => publicDefs rest
    | .dlDef d =>
        if c.vis = .publicVis then d :: publicDefs rest else publicDefs rest
    | _ => publicDefs rest

/-- A neutral oracle used as the base of the concrete contexts appearing in
witnesses and counterexamples; individual fields are overridden per test. -/
def baseCtx : Ctx where
  hasTcx := true
  defMap := fun _ => none
  tupleStructCtor := fun _ => false
  itemName := fun _ => "x"
  getAttrs := fun _ => []
  lookupStability := fun _ => none
  lookupDeprecation := fun _ => none
  crateName := fun _ => "c"
  defPath := fun _ => []
  traitDefSafety := fun _ => .normal
  traitItemsClean := fun _ => []
  lookupCleanGenerics := fun _ _ => ⟨[], [], []⟩
  isConstFn := fun _ => false
  lookupItemType := fun _ => ⟨⟨.tyOther 0⟩⟩
  cleanTy := fun _ => .otherT 0
  fnSigClean := fun _ _ => 0
  adtStructVariant := fun _ => ⟨[], .unitVK⟩
  cleanFields := fun _ => []
  isTypedef := fun _ => false
  cleanEnumVariants := fun _ => []
  lookupConstById := fun _ => none
  exprToString := fun _ => ""
  exprSpanToSrc := fun _ => ""
  inherentImpls := fun _ => none
  crateTopLevelItems := fun _ => []
  itemChildren := fun _ => []
  implTraitRef := fun _ => none
  isDocReachable := fun _ => true
  isDefaultImpl := fun _ => false
  cleanTraitRef := fun _ => .traitBound (.otherT 0)
  implItemIds := fun _ => []
  implOrTraitItem := fun _ => .methodTraitItem ⟨.publicVis, 0⟩
  cleanMethod := fun _ => Item.mk none [] (.otherItem 0) none none none ⟨0, 0⟩
  cleanTypeScheme := fun _ => ⟨.otherT 0, ⟨[], [], []⟩⟩
  traitImplPolarity := fun _ => none
  derefTraitDid := none
  providedTraitMethods := fun _ => []
  detectDerived := fun _ => false
  derefTargetsOf := fun _ => []

/-- The number of items in a list whose originating identity is `d`. -/
def defIdCount (l : List Item) (d : DefId) : Nat :=
  (l.filter (fun i => i.defId = d)).length

/-- Extract the item list of a run, defaulting to `[]` on a panic. -/
def itemsOfRes (r : Except String (List Item × SessionState)) : List Item :=
  match r with
  | .ok (l, _) => l
  | .error _ => []

/-- Extract the session state of a run, defaulting to the empty state on a
panic. -/
def stateOfRes {α : Type} (r : Except String (α × SessionState)) : SessionState :=
  match r with
  | .ok (_, st) => st
  | .error _ => SessionState.empty

/-- The originating identities of a list of items. -/
def didsOf (l : List Item) : List DefId := l.map Item.defId

/-- All items currently parked in the per-crate staging cache. -/
def stagingAll (st : SessionState) : List Item :=
  (st.allCrateImpls.map Prod.snd).flatten

/-- The session invariant relating a batch of already-returned items `outs`
to the state: all item identities (returned or staged) are pairwise distinct
and recorded in the impl-inlined set. -/
def SessInv (st : SessionState) (outs : List Item) : Prop :=
  (didsOf (outs ++ stagingAll st)).Nodup ∧
  ∀ i ∈ outs ++ stagingAll st, i.defId ∈ st.renderinfo.inlined

/-- What one successful impl-chain call guarantees about the state
transition and the freshly appended items `new`. -/
structure StepOk (st st' : SessionState) (new : List Item) : Prop where
  inlined_mono : ∀ d, d ∈ st.renderinfo.inlined → d ∈ st'.renderinfo.inlined
  keys_mono : ∀ c, (alLookup st.allCrateImpls c).isSome →
      (alLookup st'.allCrateImpls c).isSome
  walks_eq : ∀ c, (alLookup st.allCrateImpls c).isSome →
      st'.crateWalks.count c = st.crateWalks.count c
  inv_step : ∀ outs, SessInv st outs → SessInv st' (outs ++ new)
  old_did : ∀ outs d, SessInv st outs → d ∈ st.renderinfo.inlined →
      d ∈ didsOf (outs ++ new ++ stagingAll st') →
      d ∈ didsOf (outs ++ stagingAll st)
  names_step : (∀ i ∈ stagingAll st, i.name = none) →
      (∀ i ∈ stagingAll st', i.name = none) ∧ ∀ i ∈ new, i.name = none

/-- The conjunction of the impl-chain guarantees at one fuel level. -/
def MasterAt (f : Nat) : Prop :=
  (∀ (ctx : Ctx) (did : DefId) (ret : List Item) (st : SessionState)
    (res : List Item) (st' : SessionState),
    buildImpl ctx f did ret st = .ok (res, st') →
    ∃ new, res = ret ++ new ∧ StepOk st st' new) ∧
  (∀ (ctx : Ctx) (dids : List DefId) (acc : List Item) (st : SessionState)
    (res : List Item) (st' : SessionState),
    buildImplList ctx f dids acc st = .ok (res, st') →
    ∃ new, res = acc ++ new ∧ StepOk st st' new) ∧
  (∀ (ctx : Ctx) (children : List ChildItem) (acc : List Item)
    (st : SessionState) (res : List Item) (st' : SessionState),
    populateLoop ctx f children acc st = .ok (res, st') →
    ∃ new, res = acc ++ new ∧ StepOk st st' new) ∧
  (∀ (ctx : Ctx) (targets : List DefId) (acc : List Item) (st : SessionState)
    (res : List Item) (st' : SessionState),
    buildDerefTargets ctx f targets acc st = .ok (res, st') →
    ∃ new, res = acc ++ new ∧ StepOk st st' new) ∧
  (∀ (ctx : Ctx) (did : DefId) (st : SessionState) (res : List Item)
    (st' : SessionState),
    buildInherent ctx f did st = .ok (res, st') → StepOk st st' res) ∧
  (∀ (ctx : Ctx) (krate : CrateNum) (st : SessionState) (u : Unit)
    (st' : SessionState),
    crateWalkOnce ctx f krate st = .ok (u, st') → StepOk st st' []) ∧
  (∀ (ctx : Ctx) (did : DefId) (st : SessionState) (res : List Item)
    (st' : SessionState),
    buildImpls ctx f did st = .ok (res, st') → StepOk st st' res)

/-- The trait reference used by the C5 witness context. -/
def c5TraitRef : TraitRef := ⟨⟨1, 99⟩⟩

/-- Witness context for C5: every impl implements trait `⟨1,99⟩`, which is
not doc-reachable, so `build_impl` drops the impl right after marking it
inlined — keeping the witness state small and fully computable. -/
def c5Ctx : Ctx :=
  { baseCtx with
    implTraitRef := fun _ => some c5TraitRef
    isDocReachable := fun d => d.index != 99 }

/-- The state after the C5 witness's first call: only the inlined mark. -/
def c5St1 : SessionState :=
  { renderinfo := { inlined := [⟨1, 7⟩], externalPaths := [] }
    allCrateImpls := []
    crateWalks := [] }

/-- The state after the C6 witness's first call: the crate key is present
and the ghost log records exactly one walk of crate 1. -/
def c6St1 : SessionState :=
  { renderinfo := { inlined := [], externalPaths := [] }
    allCrateImpls := [(1, [])]
    crateWalks := [1] }

/-- Whether a definition reference is a foreign-module wrapper (the one
child kind the walker flattens instead of dispatching). -/
def Def.isForeignMod : Def → Bool
  | .foreignModD _ => true
  | _ => false

/-- The module layout refuting C1 as stated: module `⟨1,10⟩` re-exports the
external function `⟨1,20⟩` both directly and through the foreign-module
wrapper `⟨1,30⟩`, whose flattening runs with a fresh visited set. -/
def c1Ctx : Ctx :=
  { baseCtx with
    lookupItemType := fun _ => ⟨⟨.tyFnDef 0 .normal 0⟩⟩
    itemChildren := fun did =>
      if did = ⟨1, 10⟩ then
        [⟨.dlDef (.fnD ⟨1, 20⟩), .publicVis⟩,
         ⟨.dlDef (.foreignModD ⟨1, 30⟩), .publicVis⟩]
      else if did = ⟨1, 30⟩ then
        [⟨.dlDef (.fnD ⟨1, 20⟩), .publicVis⟩]
      else [] }

/-- Witness context for C3: node `5` resolves to the external function
`⟨1,20⟩`, whose item type is a plain function signature. -/
def c3Ctx : Ctx :=
  { baseCtx with
    defMap := fun i => if i = 5 then some (.fnD ⟨1, 20⟩) else none
    lookupItemType := fun _ => ⟨⟨.tyFnDef 0 .normal 0⟩⟩ }

/-- The single item the C3 witness run produces: the function envelope with
its name overwritten to the rename. -/
def c3Item : Item :=
  .mk (some "bar") [] (.functionItem ⟨0, ⟨[], [], []⟩, .normal, false, 0⟩)
    (some .publicV) none none ⟨1, 20⟩

/-- The session state after the C3 witness run. -/
def c3St : SessionState :=
  { renderinfo := { inlined := [⟨1, 20⟩]
                    externalPaths := [(⟨1, 20⟩, (["c"], .typeFunction))] }
    allCrateImpls := []
    crateWalks := [] }

/-- The named top-level kinds listed by the re-inlining claim: trait,
function, struct, enum, type alias, static and constant. -/
def isNamedTopLevel : Def → Bool
  | .traitD _ => true
  | .fnD _ => true
  | .structD _ => true
  | .tyAliasD _ => true
  | .enumD _ => true
  | .staticD _ _ => true
  | .constD _ => true
  | _ => false

/-- The item of the C2 counterexample run: the function envelope carrying
the database name, before any rename. -/
def c2Item : Item :=
  .mk (some "x") [] (.functionItem ⟨0, ⟨[], [], []⟩, .normal, false, 0⟩)
    (some .publicV) none none ⟨1, 20⟩

section BindLemmas

variable {ε α β : Type}

theorem exc_bind_ok (a : α) (f : α → Except ε β) :
    (Except.ok a >>= f) = f a := rfl

theorem exc_bind_error (e : ε) (f : α → Except ε β) :
    ((Except.error e : Except ε α) >>= f) = .error e := rfl

theorem exc_ok_inj {a b : α} (h : (Except.ok a : Except ε α) = .ok b) : a = b := by
  cases h; rfl

end BindLemmas

section ListHelpers

variable {α : Type}

theorem list_set_append_len (ps : List Item) (x : Item) (junk : List Item)
    (y : Item) : (ps ++ x :: junk).set ps.length y = ps ++ y :: junk := by
  induction ps with
  | nil => rfl
  | cons a ps ih => simp [List.set, ih]

theorem list_get?_append_len (ps : List Item) (x : Item) (junk : List Item) :
    (ps ++ x :: junk).get? ps.length = some x := by
  induction ps with
  | nil => rfl
  | cons a ps ih => simpa [List.get?] using ih

theorem list_dropLast_append_cons (ps : List Item) (x : Item)
    (junk : List Item) :
    (ps ++ x :: junk).dropLast = ps ++ (x :: junk).dropLast := by
  induction ps with
  | nil => rfl
  | cons a ps ih =>
      cases h : ps ++ x :: junk with
      | nil => exact absurd h (by simp)
      | cons b l => simp [List.dropLast, ← h, ih]

end ListHelpers

/-- Characterization of the staging removal loop: run on a prefix `pre` of
still-unexamined entries followed by already-kept entries `junk`, it removes
exactly the `pred`-satisfying entries of `pre` (appending them, in reverse
order of `pre`, to `out`) and keeps a permutation of the rest. -/
theorem harvestStep_spec (pred : Item → Bool) :
    ∀ (pre junk out : List Item), (∀ x ∈ junk, pred x = false) →
      (harvestStep pred pre.length (pre ++ junk) out).2 =
        out ++ (pre.filter pred).reverse ∧
      (harvestStep pred pre.length (pre ++ junk) out).1.Perm
        (pre.filter (fun x => !pred x) ++ junk) := by
  intro pre
  induction pre using List.reverseRecOn with
  | nil =>
      intro junk out hj
      constructor
      · simp [harvestStep]
      · simp [harvestStep]
  | append_singleton ps x ih =>
      intro junk out hj
      have hlen : (ps ++ [x]).length = ps.length + 1 := by simp
      have hassoc : (ps ++ [x]) ++ junk = ps ++ x :: junk := by simp
      rw [hlen, hassoc]
      show (harvestStep pred (ps.length + 1) (ps ++ x :: junk) out).2 = _ ∧ _
      simp only [harvestStep, list_get?_append_len]
      by_cases hx : pred x = true
      · rw [if_pos hx]
        rcases eq_or_ne junk [] with hjunk | hne
        · subst hjunk
          have hgl : (ps ++ x :: ([] : List Item)).getLast? = some x := by
            rw [List.getLast?_append_cons]; rfl
          have hswap : swapRemoveAt (ps ++ x :: ([] : List Item)) ps.length = ps := by
            simp only [swapRemoveAt, hgl]
            rw [list_set_append_len ps x [] x, list_dropLast_append_cons]
            simp
          rw [hswap]
          have hstep := ih [] (out ++ [x]) (by intro y hy; cases hy)
          rw [show ps ++ ([] : List Item) = ps by simp] at hstep
          refine ⟨?_, ?_⟩
          · rw [hstep.1]
            simp [List.filter_append, hx]
          · refine hstep.2.trans ?_
            simp [List.filter_append, hx]
        · obtain ⟨jl, hjl⟩ : ∃ jl, junk.getLast? = some jl := by
            cases h : junk.getLast? with
            | none => exact absurd (List.getLast?_eq_none_iff.mp h) hne
            | some jl => exact ⟨jl, rfl⟩
          have hgl : (ps ++ x :: junk).getLast? = some jl := by
            rw [List.getLast?_append_cons,
              show x :: junk = [x] ++ junk by simp,
              List.getLast?_append_of_ne_nil [x] hne, hjl]
          have hswap : swapRemoveAt (ps ++ x :: junk) ps.length =
              ps ++ jl :: junk.dropLast := by
            simp only [swapRemoveAt, hgl]
            rw [list_set_append_len ps x junk jl, list_dropLast_append_cons]
            have hdl : (jl :: junk).dropLast = jl :: junk.dropLast := by
              cases junk with
              | nil => exact absurd rfl hne
              | cons a l => rfl
            rw [hdl]
          rw [hswap]
          have hjl_mem : jl ∈ junk := List.mem_of_getLast?_eq_some hjl
          have hj' : ∀ y ∈ jl :: junk.dropLast, pred y = false := by
            intro y hy
            rcases List.mem_cons.mp hy with h | h
            · exact h ▸ hj jl hjl_mem
            · exact hj y (List.dropLast_subset junk h)
          have hstep := ih (jl :: junk.dropLast) (out ++ [x]) hj'
          refine ⟨?_, ?_⟩
          · rw [hstep.1]
            simp [List.filter_append, hx]
          · refine hstep.2.trans ?_
            have hfx : (ps ++ [x]).filter (fun y => !pred y) =
                ps.filter (fun y => !pred y) := by
              simp [List.filter_append, hx]
            rw [hfx]
            refine List.Perm.append_left _ ?_
            have hperm : junk.dropLast ++ [jl] = junk :=
              List.dropLast_append_getLast? jl (by rw [hjl]; rfl)
            have hp2 : (jl :: junk.dropLast).Perm (junk.dropLast ++ [jl]) :=
              (List.perm_append_singleton jl junk.dropLast).symm
            rw [hperm] at hp2
            exact hp2
      · rw [if_neg hx]
        have hx' : pred x = false := by
          cases h : pred x with
          | true => exact absurd h hx
          | false => rfl
        have hj' : ∀ y ∈ x :: junk, pred y = false := by
          intro y hy
          rcases List.mem_cons.mp hy with h | h
          · exact h ▸ hx'
          · exact hj y h
        have := ih (x :: junk) out hj'
        refine ⟨?_, ?_⟩
        · rw [this.1]
          simp [List.filter_append, hx']
        · refine this.2.trans ?_
          simp [List.filter_append, hx']

theorem foldl_selfBounds (l : List WherePredicate) (acc : List TyParamBound) :
    l.foldl (fun acc p => match selfBoundsOf p with
      | some bs => acc ++ bs
      | none => acc) acc
    = acc ++ (l.filterMap selfBoundsOf).flatten := by
  induction l generalizing acc with
  | nil => simp
  | cons p rest ih =>
      cases h : selfBoundsOf p with
      | none => simp [List.foldl, h, ih, List.filterMap_cons]
      | some bs => simp [List.foldl, h, ih, List.filterMap_cons]

/-- C4: after `build_external_trait`'s generics purification, no retained
where-predicate has the associated-type shape (`Self` qualified through the
trait itself: `keepNonTraitPred` is true on every retained predicate) and
none has the bare `Self : Bound` shape (`selfBoundsOf` is `none` on every
retained predicate); the returned supertrait-bound list is exactly the
concatenation, in original relative order, of the bound lists of the bare
`Self : Bound` predicates that survive the first filter. -/
theorem c4_trait_generics_purified (ctx : Ctx) (did : DefId) :
    (∀ p ∈ (buildExternalTrait ctx did).generics.wherePredicates,
        keepNonTraitPred did p = true ∧ selfBoundsOf p = none) ∧
    (buildExternalTrait ctx did).bounds =
      (((ctx.lookupCleanGenerics did .typeSpace).wherePredicates.filter
          (keepNonTraitPred did)).filterMap selfBoundsOf).flatten := by
  constructor
  · intro p hp
    have hp' : p ∈ ((ctx.lookupCleanGenerics did .typeSpace).wherePredicates.filter
        (keepNonTraitPred did)).filter (fun q => (selfBoundsOf q).isNone) := hp
    have h1 := List.mem_filter.mp hp'
    have h2 := List.mem_filter.mp h1.1
    refine ⟨h2.2, ?_⟩
    have := h1.2
    simpa [Option.isNone_iff_eq_none] using this
  · show ((ctx.lookupCleanGenerics did .typeSpace).wherePredicates.filter
        (keepNonTraitPred did)).foldl _ [] = _
    rw [foldl_selfBounds]
    simp

/-- C8: a definition dispatched to the shared alias/enum builder becomes an
enum payload carrying all cleaned variants when the typedef flag is false
and the underlying type is an enum, and a typedef payload carrying the
resolved target type whenever the typedef flag is true. -/
theorem c8_type_alias_enum_dispatch (ctx : Ctx) (did : DefId) :
    (∀ edef, (ctx.lookupItemType did).ty.sty = .tyEnum edef →
        ctx.isTypedef did = false →
        buildType ctx did = .enumItem (ctx.lookupCleanGenerics did .typeSpace)
          false (ctx.cleanEnumVariants edef)) ∧
    (ctx.isTypedef did = true →
        buildType ctx did = .typedefItem
          { type_ := ctx.cleanTy (ctx.lookupItemType did).ty
            generics := ctx.lookupCleanGenerics did .typeSpace } false) := by
  constructor
  · intro edef he hflag
    unfold buildType
    rw [he, hflag]
    rfl
  · intro hflag
    unfold buildType
    cases hsty : (ctx.lookupItemType did).ty.sty <;> simp [hflag]

/-- C9: a definition dispatched as a constant whose literal value is not
retrievable makes the whole pass terminate abruptly (an error, producing no
document item); when the lookup succeeds, `build_const` returns a constant
payload whose expression is the rendered value snippet. -/
theorem c9_const_lookup (ctx : Ctx) (did : DefId) (f : Nat) (st : SessionState) :
    (ctx.lookupConstById did = none →
        tryInlineDef ctx (f + 1) (.constD did) st =
          .error "expected lookup_const_by_id to succeed") ∧
    (∀ e oty, ctx.lookupConstById did = some (e, oty) →
        buildConst ctx did = .ok
          { type_ := match oty with
              | some t => ctx.cleanTy t
              | none => ctx.cleanTy (ctx.lookupItemType did).ty
            expr := ctx.exprToString e }) := by
  constructor
  · intro h
    simp [tryInlineDef, buildConst, h]
  · intro e oty h
    simp [buildConst, h]

/-- C10: the static payload built for every inlined static has the fixed
three-newline expression text, the resolved item type, and exactly the
mutability flag carried by the definition reference; the dispatcher wraps
precisely this payload for a static definition. -/
theorem c10_static_payload (ctx : Ctx) (did : DefId) (mtbl : Bool) :
    (buildStatic ctx did mtbl).expr = "\n\n\n" ∧
    (buildStatic ctx did mtbl).type_ = ctx.cleanTy (ctx.lookupItemType did).ty ∧
    (buildStatic ctx did mtbl).mutability =
      (if mtbl then .mutableM else .immutableM) ∧
    ∀ f st, tryInlineDef ctx (f + 1) (.staticD did mtbl) st =
      .ok (some [mkEnvelope ctx did (.staticItem (buildStatic ctx did mtbl))],
        markInlined (recordExternFqn ctx st did .typeStatic) did) := by
  refine ⟨rfl, rfl, rfl, ?_⟩
  intro f st
  rfl

theorem harvest_full (pred : Item → Bool) (l : List Item) :
    (harvestStep pred l.length l []).2 = (l.filter pred).reverse ∧
    (harvestStep pred l.length l []).1.Perm (l.filter (fun x => !pred x)) := by
  have h := harvestStep_spec pred l [] [] (by intro x hx; cases hx)
  rw [List.append_nil] at h
  constructor
  · rw [h.1]; rfl
  · have := h.2
    rwa [List.append_nil] at this

/-- The harvest stage in isolation: a successful `harvestFinish` looks up
the crate's staging list, appends exactly the matching entries (in reverse
filter order) to the inherent items, and stores back a permutation of the
non-matching entries. -/
theorem harvestFinish_spec (ctx : Ctx) (did : DefId) (impls : List Item)
    (st st' : SessionState) (r : List Item)
    (h : harvestFinish ctx did impls st = .ok (r, st')) :
    ∃ (lMid : List Item),
      alLookup st.allCrateImpls did.krate = some lMid ∧
      r = impls ++ (lMid.filter (harvestPred did)).reverse ∧
      st' = { st with
          allCrateImpls := alInsert st.allCrateImpls did.krate
            ((harvestStep (harvestPred did) lMid.length lMid []).1) } ∧
      (harvestStep (harvestPred did) lMid.length lMid []).1.Perm
        (lMid.filter (fun x => !harvestPred did x)) ∧
      (∀ x ∈ lMid, harvestPred did x = true → x ∈ r) := by
  unfold harvestFinish at h
  cases hLook : alLookup st.allCrateImpls did.krate with
  | none => rw [hLook] at h; cases h
  | some lMid =>
      rw [hLook] at h
      simp only [] at h
      have hinj := exc_ok_inj h
      have hr : impls ++ (harvestStep (harvestPred did) lMid.length lMid []).2 = r :=
        congrArg Prod.fst hinj
      have hst : ({ st with
          allCrateImpls := alInsert st.allCrateImpls did.krate
            ((harvestStep (harvestPred did) lMid.length lMid []).1) } :
          SessionState) = st' := congrArg Prod.snd hinj
      refine ⟨lMid, rfl, ?_, hst.symm, (harvest_full _ lMid).2, ?_⟩
      · rw [← hr, (harvest_full (harvestPred did) lMid).1]
      · intro x hx hpx
        rw [← hr, (harvest_full (harvestPred did) lMid).1]
        have hmem : x ∈ (lMid.filter (harvestPred did)).reverse := by
          rw [List.mem_reverse]
          exact List.mem_filter.mpr ⟨hx, hpx⟩
        exact List.mem_append.mpr (Or.inr hmem)

/-- C7: whenever `build_impls` completes for a type identity, the result is
the inherent-impl items followed by exactly those staging-cache entries (of
the state reached after the inherent build and the possible one-time walk)
that satisfy the removal predicate — implementing type resolving to this
identity, or primitive; those entries are moved (the surviving staging list
is a permutation of the non-matching entries, so nothing is copied), and in
particular every staged impl on a primitive type is included in the result
no matter which type of the crate is being harvested. -/
theorem c7_staging_removal (ctx : Ctx) (f : Nat) (did : DefId)
    (st st' : SessionState) (r : List Item)
    (h : buildImpls ctx (f + 1) did st = .ok (r, st')) :
    ∃ (inh : List Item) (stMid : SessionState) (lMid : List Item),
      alLookup stMid.allCrateImpls did.krate = some lMid ∧
      r = inh ++ (lMid.filter (harvestPred did)).reverse ∧
      st' = { stMid with
          allCrateImpls := alInsert stMid.allCrateImpls did.krate
            ((harvestStep (harvestPred did) lMid.length lMid []).1) } ∧
      (harvestStep (harvestPred did) lMid.length lMid []).1.Perm
        (lMid.filter (fun x => !harvestPred did x)) ∧
      (∀ x ∈ lMid, harvestPred did x = true → x ∈ r) := by
  rw [buildImpls] at h
  cases hI : buildInherent ctx f did st with
  | error e => rw [hI] at h; cases h
  | ok p =>
      obtain ⟨impls, st1⟩ := p
      rw [hI] at h
      simp only [exc_bind_ok] at h
      cases hW : crateWalkOnce ctx f did.krate st1 with
      | error e => rw [hW] at h; cases h
      | ok q =>
          obtain ⟨u, st2⟩ := q
          rw [hW] at h
          simp only [exc_bind_ok] at h
          obtain ⟨lMid, h1, h2, h3, h4, h5⟩ := harvestFinish_spec ctx did impls st2 st' r h
          exact ⟨impls, st2, lMid, h1, h2, h3, h4, h5⟩

theorem stepOk_refl (st : SessionState) : StepOk st st [] where
  inlined_mono := fun _ h => h
  keys_mono := fun _ h => h
  walks_eq := fun _ _ => rfl
  inv_step := fun outs h => by simpa using h
  old_did := fun outs d _ _ h => by simpa using h
  names_step := fun h => ⟨h, by intro i hi; cases hi⟩

theorem stepOk_trans {st st1 st' : SessionState} {n1 n2 : List Item}
    (a : StepOk st st1 n1) (b : StepOk st1 st' n2) :
    StepOk st st' (n1 ++ n2) where
  inlined_mono := fun d h => b.inlined_mono d (a.inlined_mono d h)
  keys_mono := fun c h => b.keys_mono c (a.keys_mono c h)
  walks_eq := fun c h => by
    rw [b.walks_eq c (a.keys_mono c h), a.walks_eq c h]
  inv_step := fun outs h => by
    have h1 := a.inv_step outs h
    have h2 := b.inv_step (outs ++ n1) h1
    rwa [List.append_assoc] at h2
  old_did := fun outs d hinv hd hmem => by
    have h1 := a.inv_step outs hinv
    have hd1 := a.inlined_mono d hd
    have hmem' : d ∈ didsOf ((outs ++ n1) ++ n2 ++ stagingAll st') := by
      have : outs ++ (n1 ++ n2) ++ stagingAll st' =
          (outs ++ n1) ++ n2 ++ stagingAll st' := by
        simp [List.append_assoc]
      rwa [this] at hmem
    have := b.old_did (outs ++ n1) d h1 hd1 hmem'
    exact a.old_did outs d hinv hd this
  names_step := fun h => by
    have h1 := a.names_step h
    have h2 := b.names_step h1.1
    refine ⟨h2.1, ?_⟩
    intro i hi
    rcases List.mem_append.mp hi with h' | h'
    · exact h1.2 i h'
    · exact h2.2 i h'

theorem alLookup_alInsert_self {α : Type} (m : List (CrateNum × α)) (k : CrateNum)
    (v : α) : alLookup (alInsert m k v) k = some v := by
  induction m with
  | nil => simp [alInsert, alLookup]
  | cons p rest ih =>
      obtain ⟨k', v'⟩ := p
      by_cases h : k' = k
      · subst h; simp [alInsert, alLookup]
      · simp [alInsert, alLookup, h, ih]

theorem alLookup_alInsert_other {α : Type} (m : List (CrateNum × α)) (k c : CrateNum)
    (v : α) (h : c ≠ k) : alLookup (alInsert m k v) c = alLookup m c := by
  have hne : ¬ (k = c) := fun hh => h hh.symm
  induction m with
  | nil => simp [alInsert, alLookup, hne]
  | cons p rest ih =>
      obtain ⟨k', v'⟩ := p
      by_cases h' : k' = k
      · subst h'
        simp [alInsert, alLookup, hne]
      · simp [alInsert, alLookup, h', ih]

theorem flatten_alInsert_none (m : List (CrateNum × List Item)) (k : CrateNum)
    (v : List Item) (h : alLookup m k = none) :
    ((alInsert m k v).map Prod.snd).flatten.Perm
      ((m.map Prod.snd).flatten ++ v) := by
  induction m with
  | nil => simp [alInsert]
  | cons p rest ih =>
      obtain ⟨k', v'⟩ := p
      by_cases h' : k' = k
      · subst h'
        simp [alLookup] at h
      · rw [alLookup] at h
        rw [if_neg h'] at h
        have := ih h
        simp only [alInsert, if_neg h', List.map_cons, List.flatten_cons]
        have hp := List.Perm.append_left v' this
        rwa [← List.append_assoc] at hp

theorem flatten_alInsert_some (m : List (CrateNum × List Item)) (k : CrateNum)
    (v l : List Item) (h : alLookup m k = some l) :
    (((alInsert m k v).map Prod.snd).flatten ++ l).Perm
      ((m.map Prod.snd).flatten ++ v) := by
  induction m with
  | nil => simp [alLookup] at h
  | cons p rest ih =>
      obtain ⟨k', v'⟩ := p
      by_cases h' : k' = k
      · subst h'
        rw [alLookup, if_pos rfl] at h
        cases h
        simp only [alInsert, if_pos rfl, List.map_cons, List.flatten_cons]
        have h1 : (v ++ (rest.map Prod.snd).flatten ++ l).Perm
            (l ++ (v ++ (rest.map Prod.snd).flatten)) := List.perm_append_comm
        have h2 : (l ++ (v ++ (rest.map Prod.snd).flatten)).Perm
            (l ++ ((rest.map Prod.snd).flatten ++ v)) :=
          List.Perm.append_left l List.perm_append_comm
        have h3 := h1.trans h2
        rwa [← List.append_assoc] at h3
      · rw [alLookup, if_neg h'] at h
        have hih := ih h
        simp only [alInsert, if_neg h', List.map_cons, List.flatten_cons]
        rw [List.append_assoc v' _ l]
        have hp := List.Perm.append_left v' hih
        rwa [← List.append_assoc v' ((rest.map Prod.snd).flatten) v] at hp

theorem mem_flatten_of_alLookup (m : List (CrateNum × List Item))
    (k : CrateNum) (l : List Item) (h : alLookup m k = some l) :
    ∀ i ∈ l, i ∈ (m.map Prod.snd).flatten := by
  induction m with
  | nil => simp [alLookup] at h
  | cons p rest ih =>
      obtain ⟨k', v'⟩ := p
      rw [alLookup] at h
      by_cases h' : k' = k
      · rw [if_pos h'] at h
        cases h
        intro i hi
        simp [hi]
      · rw [if_neg h'] at h
        intro i hi
        simp only [List.map_cons, List.flatten_cons, List.mem_append]
        exact Or.inr (ih h i hi)

theorem mem_staging_of_lookup {st : SessionState} {k : CrateNum} {l : List Item}
    (h : alLookup st.allCrateImpls k = some l) : ∀ i ∈ l, i ∈ stagingAll st :=
  mem_flatten_of_alLookup st.allCrateImpls k l h

theorem stagingAll_update_staging (st : SessionState)
    (m : List (CrateNum × List Item)) :
    stagingAll { st with allCrateImpls := m } = (m.map Prod.snd).flatten := rfl

theorem markInlined_mem (st : SessionState) (did d : DefId) :
    d ∈ (markInlined st did).renderinfo.inlined ↔
      d = did ∨ d ∈ st.renderinfo.inlined := by
  unfold markInlined insertDid
  by_cases h : did ∈ st.renderinfo.inlined
  · rw [if_pos h]
    constructor
    · exact fun hd => Or.inr hd
    · rintro (rfl | hd)
      · exact h
      · exact hd
  · rw [if_neg h]
    simp [List.mem_cons]

theorem stepOk_markInlined (st : SessionState) (did : DefId) :
    StepOk st (markInlined st did) [] where
  inlined_mono := fun d h => (markInlined_mem st did d).mpr (Or.inr h)
  keys_mono := fun _ h => h
  walks_eq := fun _ _ => rfl
  inv_step := fun outs h => by
    refine ⟨by simpa using h.1, ?_⟩
    intro i hi
    have := h.2 i (by simpa using hi)
    exact (markInlined_mem st did i.defId).mpr (Or.inr this)
  old_did := fun outs d _ _ h => by simpa using h
  names_step := fun h => ⟨h, by intro i hi; cases hi⟩

theorem stepOk_ghostWalk (st : SessionState) (krate : CrateNum)
    (h : alLookup st.allCrateImpls krate = none) :
    StepOk st { st with crateWalks := st.crateWalks ++ [krate] } [] where
  inlined_mono := fun _ h => h
  keys_mono := fun _ h => h
  walks_eq := fun c hc => by
    have hne : c ≠ krate := by
      intro he
      rw [he, h] at hc
      cases hc
    simp [List.count_append, List.count_singleton, hne]
  inv_step := fun outs hv => by simpa using hv
  old_did := fun outs d _ _ hm => by simpa using hm
  names_step := fun hn => ⟨hn, by intro i hi; cases hi⟩

theorem isSome_alInsert {α : Type} (m : List (CrateNum × α)) (k c : CrateNum)
    (v : α) (h : (alLookup m c).isSome) :
    (alLookup (alInsert m k v) c).isSome := by
  by_cases hc : c = k
  · subst hc
    rw [alLookup_alInsert_self]
    rfl
  · rw [alLookup_alInsert_other m k c v hc]
    exact h

theorem stagingAll_insert_perm_none (st : SessionState) (k : CrateNum)
    (v : List Item) (h : alLookup st.allCrateImpls k = none) :
    (stagingAll { st with allCrateImpls := alInsert st.allCrateImpls k v }).Perm
      (stagingAll st ++ v) :=
  flatten_alInsert_none st.allCrateImpls k v h

theorem stagingAll_insert_perm_some (st : SessionState) (k : CrateNum)
    (v l : List Item) (h : alLookup st.allCrateImpls k = some l) :
    ((stagingAll { st with allCrateImpls := alInsert st.allCrateImpls k v })
      ++ l).Perm (stagingAll st ++ v) :=
  flatten_alInsert_some st.allCrateImpls k v l h

theorem perm_outs_insert_none (st : SessionState) (k : CrateNum)
    (v outs : List Item) (h : alLookup st.allCrateImpls k = none) :
    ((outs ++ stagingAll { st with
          allCrateImpls := alInsert st.allCrateImpls k v })).Perm ((outs ++ v) ++ stagingAll st) := by
  have h1 := List.Perm.append_left outs (stagingAll_insert_perm_none st k v h)
  have h2 : (outs ++ (stagingAll st ++ v)).Perm (outs ++ (v ++ stagingAll st)) :=
    List.Perm.append_left outs List.perm_append_comm
  have h3 := h1.trans h2
  rwa [← List.append_assoc] at h3

theorem perm_outs_insert_some (st : SessionState) (k : CrateNum)
    (v l outs : List Item) (h : alLookup st.allCrateImpls k = some l) :
    ((outs ++ stagingAll { st with
          allCrateImpls := alInsert st.allCrateImpls k v }) ++ l).Perm
      ((outs ++ v) ++ stagingAll st) := by
  rw [List.append_assoc]
  have h1 := List.Perm.append_left outs (stagingAll_insert_perm_some st k v l h)
  have h2 : (outs ++ (stagingAll st ++ v)).Perm (outs ++ (v ++ stagingAll st)) :=
    List.Perm.append_left outs List.perm_append_comm
  have h3 := h1.trans h2
  rwa [← List.append_assoc outs v (stagingAll st)] at h3

theorem sessInv_stagingInsert (st : SessionState) (k : CrateNum)
    (v outs : List Item) (h : SessInv st (outs ++ v)) :
    SessInv { st with allCrateImpls := alInsert st.allCrateImpls k v } outs := by
  obtain ⟨hnd, hmem⟩ := h
  rw [List.append_assoc] at hnd hmem
  cases hl : alLookup st.allCrateImpls k with
  | none =>
      have hperm := perm_outs_insert_none st k v outs hl
      have hperm' : ((outs ++ v) ++ stagingAll st).Perm
          (outs ++ stagingAll { st with
          allCrateImpls := alInsert st.allCrateImpls k v }) := hperm.symm
      rw [List.append_assoc] at hperm'
      constructor
      · exact (hperm'.map Item.defId).nodup hnd
      · intro i hi
        have : i ∈ outs ++ (v ++ stagingAll st) := hperm'.symm.subset hi
        exact hmem i this
  | some l =>
      have hperm := perm_outs_insert_some st k v l outs hl
      have hperm' := hperm.symm
      rw [List.append_assoc outs v (stagingAll st)] at hperm'
      constructor
      · have hnd2 := (hperm'.map Item.defId).nodup hnd
        rw [List.map_append] at hnd2
        exact List.Nodup.of_append_left hnd2
      · intro i hi
        have hi2 : i ∈ (outs ++ stagingAll { st with
          allCrateImpls := alInsert st.allCrateImpls k v }) ++ l :=
          List.mem_append.mpr (Or.inl hi)
        have : i ∈ outs ++ (v ++ stagingAll st) := hperm'.symm.subset hi2
        exact hmem i this

theorem stagingInsert_item_mem (st : SessionState) (k : CrateNum)
    (v : List Item) :
    ∀ i ∈ stagingAll { st with allCrateImpls := alInsert st.allCrateImpls k v },
      i ∈ stagingAll st ∨ i ∈ v := by
  intro i hi
  cases hl : alLookup st.allCrateImpls k with
  | none =>
      have := (stagingAll_insert_perm_none st k v hl).subset hi
      exact List.mem_append.mp this
  | some l =>
      have hi2 : i ∈ stagingAll { st with
          allCrateImpls := alInsert st.allCrateImpls k v } ++ l := List.mem_append.mpr (Or.inl hi)
      have := (stagingAll_insert_perm_some st k v l hl).subset hi2
      exact List.mem_append.mp this

theorem perm_conserve_staging (st : SessionState) (k : CrateNum)
    (lMid remaining removed : List Item)
    (hLook : alLookup st.allCrateImpls k = some lMid)
    (hcons : (removed ++ remaining).Perm lMid) :
    (removed ++ stagingAll { st with
        allCrateImpls := alInsert st.allCrateImpls k remaining }).Perm
      (stagingAll st) := by
  have hp := stagingAll_insert_perm_some st k remaining lMid hLook
  rw [← Multiset.coe_eq_coe] at hp hcons ⊢
  rw [← Multiset.coe_add] at hp hcons ⊢
  rw [← Multiset.coe_add] at hp
  have hstep : (removed : Multiset Item) +
      (stagingAll { st with
        allCrateImpls := alInsert st.allCrateImpls k remaining } : Multiset Item) +
      (remaining : Multiset Item) =
      (stagingAll st : Multiset Item) + (remaining : Multiset Item) := by
    calc (removed : Multiset Item) +
        (stagingAll { st with
          allCrateImpls := alInsert st.allCrateImpls k remaining } : Multiset Item) +
        (remaining : Multiset Item)
        = (stagingAll { st with
            allCrateImpls := alInsert st.allCrateImpls k remaining } : Multiset Item) +
          ((removed : Multiset Item) + (remaining : Multiset Item)) := by abel
      _ = (stagingAll { st with
            allCrateImpls := alInsert st.allCrateImpls k remaining } : Multiset Item) +
          (lMid : Multiset Item) := by rw [hcons]
      _ = (stagingAll st : Multiset Item) + (remaining : Multiset Item) := hp
  exact add_right_cancel hstep

theorem harvestFinish_stepOk (ctx : Ctx) (did : DefId) (impls : List Item)
    (st st' : SessionState) (r : List Item)
    (h : harvestFinish ctx did impls st = .ok (r, st')) :
    ∃ removed, r = impls ++ removed ∧ StepOk st st' removed := by
  obtain ⟨lMid, hLook, hr, hst', hrem, hinr⟩ :=
    harvestFinish_spec ctx did impls st st' r h
  set removed := (lMid.filter (harvestPred did)).reverse with hrmv
  set remaining := (harvestStep (harvestPred did) lMid.length lMid []).1 with hrmn
  refine ⟨removed, hr, ?_⟩
  have hcons : (removed ++ remaining).Perm lMid := by
    have h1 : (removed ++ remaining).Perm
        (lMid.filter (harvestPred did) ++ lMid.filter (fun x => !harvestPred did x)) :=
      List.Perm.append (List.reverse_perm _) hrem
    exact h1.trans (List.filter_append_perm _ lMid)
  have hmove := perm_conserve_staging st did.krate lMid remaining removed hLook hcons
  subst hst'
  have hKP : ∀ outs : List Item,
      ((outs ++ removed) ++ stagingAll { st with
        allCrateImpls := alInsert st.allCrateImpls did.krate remaining }).Perm
        (outs ++ stagingAll st) := by
    intro outs
    rw [List.append_assoc]
    exact List.Perm.append_left outs hmove
  constructor
  · intro d hd
    exact hd
  · intro c hc
    exact isSome_alInsert st.allCrateImpls did.krate c remaining hc
  · intro c _
    rfl
  · intro outs hv
    obtain ⟨hnd, hmem⟩ := hv
    constructor
    · exact ((hKP outs).symm.map Item.defId).nodup hnd
    · intro i hi
      exact hmem i ((hKP outs).subset hi)
  · intro outs d hv hd hmm
    have : d ∈ didsOf (outs ++ stagingAll st) := by
      have hp := (hKP outs).map Item.defId
      exact hp.subset hmm
    exact this
  · intro hn
    constructor
    · intro i hi
      have : i ∈ removed ++ stagingAll { st with
          allCrateImpls := alInsert st.allCrateImpls did.krate remaining } :=
        List.mem_append.mpr (Or.inr hi)
      exact hn i (hmove.subset this)
    · intro i hi
      have : i ∈ removed ++ stagingAll { st with
          allCrateImpls := alInsert st.allCrateImpls did.krate remaining } :=
        List.mem_append.mpr (Or.inl hi)
      exact hn i (hmove.subset this)

theorem stagingAll_markInlined (st : SessionState) (did : DefId) :
    stagingAll (markInlined st did) = stagingAll st := rfl

theorem stepOk_insertDerefPush (st st2 : SessionState) (did : DefId)
    (dnew : List Item) (it : Item)
    (hfresh : did ∉ st.renderinfo.inlined)
    (hstep : StepOk (markInlined st did) st2 dnew)
    (hdid : it.defId = did) (hname : it.name = none) :
    StepOk st st2 (dnew ++ [it]) := by
  have hmark := stepOk_markInlined st did
  have hself : did ∈ (markInlined st did).renderinfo.inlined :=
    (markInlined_mem st did did).mpr (Or.inl rfl)
  refine ⟨?_, ?_, ?_, ?_, ?_, ?_⟩
  · intro d hd
    exact hstep.inlined_mono d ((markInlined_mem st did d).mpr (Or.inr hd))
  · intro c hc
    exact hstep.keys_mono c hc
  · intro c hc
    exact hstep.walks_eq c hc
  · intro outs hv
    have hv1 : SessInv (markInlined st did) outs := by
      have := hmark.inv_step outs hv
      simpa using this
    have hv2 := hstep.inv_step outs hv1
    have hdid_out : did ∉ didsOf ((outs ++ dnew) ++ stagingAll st2) := by
      intro hmem
      have := hstep.old_did outs did hv1 hself hmem
      rw [stagingAll_markInlined] at this
      obtain ⟨i, hi, hieq⟩ := List.mem_map.mp this
      have := hv.2 i hi
      rw [hieq] at this
      exact hfresh this
    constructor
    · have hperm : (outs ++ (dnew ++ [it]) ++ stagingAll st2).Perm
          (it :: ((outs ++ dnew) ++ stagingAll st2)) := by
        have he : outs ++ (dnew ++ [it]) ++ stagingAll st2 =
            (outs ++ dnew) ++ it :: stagingAll st2 := by
          simp [List.append_assoc]
        rw [he]
        exact List.perm_middle
      refine ((hperm.map Item.defId).symm).nodup ?_
      rw [List.map_cons]
      refine List.nodup_cons.mpr ⟨?_, ?_⟩
      · rw [hdid]
        exact hdid_out
      · exact hv2.1
    · intro i hi
      have hsplit : i = it ∨ i ∈ (outs ++ dnew) ++ stagingAll st2 := by
        have hperm : (outs ++ (dnew ++ [it]) ++ stagingAll st2).Perm
            (it :: ((outs ++ dnew) ++ stagingAll st2)) := by
          have he : outs ++ (dnew ++ [it]) ++ stagingAll st2 =
              (outs ++ dnew) ++ it :: stagingAll st2 := by
            simp [List.append_assoc]
          rw [he]
          exact List.perm_middle
        have := hperm.subset hi
        exact List.mem_cons.mp this
      rcases hsplit with rfl | hi'
      · rw [hdid]
        exact hstep.inlined_mono did hself
      · exact hv2.2 i hi'
  · intro outs d hv hd hmem
    have hdne : d ≠ did := fun he => hfresh (he ▸ hd)
    have hv1 : SessInv (markInlined st did) outs := by
      have := hmark.inv_step outs hv
      simpa using this
    have hmem' : d ∈ didsOf (outs ++ dnew ++ stagingAll st2) := by
      have hperm : (outs ++ (dnew ++ [it]) ++ stagingAll st2).Perm
          (it :: ((outs ++ dnew) ++ stagingAll st2)) := by
        have he : outs ++ (dnew ++ [it]) ++ stagingAll st2 =
            (outs ++ dnew) ++ it :: stagingAll st2 := by
          simp [List.append_assoc]
        rw [he]
        exact List.perm_middle
      have := (hperm.map Item.defId).subset hmem
      rw [List.map_cons] at this
      rcases List.mem_cons.mp this with he | hrest
      · rw [hdid] at he
        exact absurd he hdne
      · exact hrest
    have := hstep.old_did outs d hv1 ((markInlined_mem st did d).mpr (Or.inr hd)) hmem'
    rwa [stagingAll_markInlined] at this
  · intro hn
    have hn1 : ∀ i ∈ stagingAll (markInlined st did), i.name = none := by
      rwa [stagingAll_markInlined]
    have h2 := hstep.names_step hn1
    refine ⟨h2.1, ?_⟩
    intro i hi
    rcases List.mem_append.mp hi with h' | h'
    · exact h2.2 i h'
    · rcases List.mem_singleton.mp h' with rfl
      exact hname

theorem stepOk_moveToStaging (st st2 : SessionState) (k : CrateNum)
    (v : List Item)
    (h0 : alLookup st.allCrateImpls k = none)
    (hstep : StepOk { st with crateWalks := st.crateWalks ++ [k] } st2 v) :
    StepOk st { st2 with allCrateImpls := alInsert st2.allCrateImpls k v } [] := by
  have hg := stepOk_ghostWalk st k h0
  refine ⟨?_, ?_, ?_, ?_, ?_, ?_⟩
  · intro d hd
    exact hstep.inlined_mono d (hg.inlined_mono d hd)
  · intro c hc
    exact isSome_alInsert st2.allCrateImpls k c v
      (hstep.keys_mono c (hg.keys_mono c hc))
  · intro c hc
    show st2.crateWalks.count c = st.crateWalks.count c
    rw [hstep.walks_eq c (hg.keys_mono c hc), hg.walks_eq c hc]
  · intro outs hv
    have hv1 : SessInv { st with crateWalks := st.crateWalks ++ [k] } outs := by
      have := hg.inv_step outs hv
      simpa using this
    have hv2 := hstep.inv_step outs hv1
    have := sessInv_stagingInsert st2 k v outs hv2
    simpa using this
  · intro outs d hv hd hmem
    have hv1 : SessInv { st with crateWalks := st.crateWalks ++ [k] } outs := by
      have := hg.inv_step outs hv
      simpa using this
    have hmem2 : d ∈ didsOf (outs ++ v ++ stagingAll st2) := by
      simp only [List.append_nil] at hmem
      obtain ⟨i, hi, hieq⟩ := List.mem_map.mp hmem
      rcases List.mem_append.mp hi with h' | h'
      · exact List.mem_map.mpr ⟨i, by simp [h'], hieq⟩
      · rcases stagingInsert_item_mem st2 k v i h' with h'' | h''
        · exact List.mem_map.mpr ⟨i, by simp [h''], hieq⟩
        · exact List.mem_map.mpr ⟨i, by simp [h''], hieq⟩
    have := hstep.old_did outs d hv1 (hg.inlined_mono d hd) hmem2
    exact this
  · intro hn
    have h2 := hstep.names_step hn
    refine ⟨?_, by intro i hi; cases hi⟩
    intro i hi
    rcases stagingInsert_item_mem st2 k v i hi with h' | h'
    · exact h2.1 i h'
    · exact h2.2 i h'

theorem exc_ok_pair {ε α β : Type} (a c : α) (b d : β)
    (h : (Except.ok (a, b) : Except ε (α × β)) = .ok (c, d)) : a = c ∧ b = d := by
  have := exc_ok_inj h
  exact ⟨congrArg Prod.fst this, congrArg Prod.snd this⟩

theorem master_buildImplList (f : Nat)
    (ihImpl : ∀ (ctx : Ctx) (did : DefId) (ret : List Item) (st : SessionState)
      (res : List Item) (st' : SessionState),
      buildImpl ctx f did ret st = .ok (res, st') →
      ∃ new, res = ret ++ new ∧ StepOk st st' new)
    (ihList : ∀ (ctx : Ctx) (dids : List DefId) (acc : List Item)
      (st : SessionState) (res : List Item) (st' : SessionState),
      buildImplList ctx f dids acc st = .ok (res, st') →
      ∃ new, res = acc ++ new ∧ StepOk st st' new) :
    ∀ (ctx : Ctx) (dids : List DefId) (acc : List Item) (st : SessionState)
      (res : List Item) (st' : SessionState),
      buildImplList ctx (f + 1) dids acc st = .ok (res, st') →
      ∃ new, res = acc ++ new ∧ StepOk st st' new := by
  intro ctx dids acc st res st' h
  cases dids with
  | nil =>
      rw [buildImplList] at h
      obtain ⟨h1, h2⟩ := exc_ok_pair _ _ _ _ h
      subst h1; subst h2
      exact ⟨[], by simp, stepOk_refl st⟩
  | cons d rest =>
      rw [buildImplList] at h
      cases hbi : buildImpl ctx f d acc st with
      | error e => rw [hbi] at h; simp [exc_bind_error] at h
      | ok p =>
          obtain ⟨acc1, st1⟩ := p
          rw [hbi] at h
          simp only [exc_bind_ok] at h
          obtain ⟨n1, hn1, s1⟩ := ihImpl ctx d acc st acc1 st1 hbi
          obtain ⟨n2, hn2, s2⟩ := ihList ctx rest acc1 st1 res st' h
          refine ⟨n1 ++ n2, ?_, stepOk_trans s1 s2⟩
          rw [hn2, hn1, List.append_assoc]

theorem master_derefTargets (f : Nat)
    (ihImpls : ∀ (ctx : Ctx) (did : DefId) (st : SessionState)
      (res : List Item) (st' : SessionState),
      buildImpls ctx f did st = .ok (res, st') → StepOk st st' res)
    (ihDeref : ∀ (ctx : Ctx) (targets : List DefId) (acc : List Item)
      (st : SessionState) (res : List Item) (st' : SessionState),
      buildDerefTargets ctx f targets acc st = .ok (res, st') →
      ∃ new, res = acc ++ new ∧ StepOk st st' new) :
    ∀ (ctx : Ctx) (targets : List DefId) (acc : List Item) (st : SessionState)
      (res : List Item) (st' : SessionState),
      buildDerefTargets ctx (f + 1) targets acc st = .ok (res, st') →
      ∃ new, res = acc ++ new ∧ StepOk st st' new := by
  intro ctx targets acc st res st' h
  cases targets with
  | nil =>
      rw [buildDerefTargets] at h
      obtain ⟨h1, h2⟩ := exc_ok_pair _ _ _ _ h
      subst h1; subst h2
      exact ⟨[], by simp, stepOk_refl st⟩
  | cons t rest =>
      rw [buildDerefTargets] at h
      cases hbi : buildImpls ctx f t st with
      | error e => rw [hbi] at h; simp [exc_bind_error] at h
      | ok p =>
          obtain ⟨extra, st1⟩ := p
          rw [hbi] at h
          simp only [exc_bind_ok] at h
          have s1 := ihImpls ctx t st extra st1 hbi
          obtain ⟨n2, hn2, s2⟩ := ihDeref ctx rest (acc ++ extra) st1 res st' h
          refine ⟨extra ++ n2, ?_, stepOk_trans s1 s2⟩
          rw [hn2, List.append_assoc]

theorem master_buildInherent (f : Nat)
    (ihList : ∀ (ctx : Ctx) (dids : List DefId) (acc : List Item)
      (st : SessionState) (res : List Item) (st' : SessionState),
      buildImplList ctx f dids acc st = .ok (res, st') →
      ∃ new, res = acc ++ new ∧ StepOk st st' new) :
    ∀ (ctx : Ctx) (did : DefId) (st : SessionState) (res : List Item)
      (st' : SessionState),
      buildInherent ctx (f + 1) did st = .ok (res, st') → StepOk st st' res := by
  intro ctx did st res st' h
  rw [buildInherent] at h
  cases hih : ctx.inherentImpls did with
  | some dids =>
      rw [hih] at h
      obtain ⟨new, hnew, s⟩ := ihList ctx dids [] st res st' h
      rw [hnew]
      simpa using s
  | none =>
      rw [hih] at h
      obtain ⟨h1, h2⟩ := exc_ok_pair _ _ _ _ h
      subst h1; subst h2
      exact stepOk_refl st

theorem master_populateLoop (f : Nat)
    (ihImpl : ∀ (ctx : Ctx) (did : DefId) (ret : List Item) (st : SessionState)
      (res : List Item) (st' : SessionState),
      buildImpl ctx f did ret st = .ok (res, st') →
      ∃ new, res = ret ++ new ∧ StepOk st st' new)
    (ihPop : ∀ (ctx : Ctx) (children : List ChildItem) (acc : List Item)
      (st : SessionState) (res : List Item) (st' : SessionState),
      populateLoop ctx f children acc st = .ok (res, st') →
      ∃ new, res = acc ++ new ∧ StepOk st st' new) :
    ∀ (ctx : Ctx) (children : List ChildItem) (acc : List Item)
      (st : SessionState) (res : List Item) (st' : SessionState),
      populateLoop ctx (f + 1) children acc st = .ok (res, st') →
      ∃ new, res = acc ++ new ∧ StepOk st st' new := by
  intro ctx children acc st res st' h
  cases children with
  | nil =>
      rw [populateLoop] at h
      obtain ⟨h1, h2⟩ := exc_ok_pair _ _ _ _ h
      subst h1; subst h2
      exact ⟨[], by simp, stepOk_refl st⟩
  | cons c rest =>
      rw [populateLoop] at h
      rcases hdl : c.defLike with d | idid | _
      · rcases hdef : d with ⟨td⟩ | ⟨fd⟩ | ⟨sd⟩ | ⟨ad⟩ | ⟨ed⟩ | ⟨vd⟩ | ⟨md⟩
          | ⟨fmd⟩ | ⟨std, mt⟩ | ⟨cd⟩ | ⟨acd⟩ | ⟨od⟩ <;>
          simp only [hdl, hdef] at h
        case modD =>
          cases hin : populateLoop ctx f (ctx.itemChildren md) acc st with
          | error e => rw [hin] at h; simp [exc_bind_error] at h
          | ok p =>
              obtain ⟨acc1, st1⟩ := p
              rw [hin] at h
              simp only [exc_bind_ok] at h
              obtain ⟨n1, hn1, s1⟩ := ihPop ctx (ctx.itemChildren md) acc st acc1 st1 hin
              obtain ⟨n2, hn2, s2⟩ := ihPop ctx rest acc1 st1 res st' h
              refine ⟨n1 ++ n2, ?_, stepOk_trans s1 s2⟩
              rw [hn2, hn1, List.append_assoc]
        all_goals exact ihPop ctx rest acc st res st' h
      · simp only [hdl] at h
        cases hbi : buildImpl ctx f idid acc st with
        | error e => rw [hbi] at h; simp [exc_bind_error] at h
        | ok p =>
            obtain ⟨acc1, st1⟩ := p
            rw [hbi] at h
            simp only [exc_bind_ok] at h
            obtain ⟨n1, hn1, s1⟩ := ihImpl ctx idid acc st acc1 st1 hbi
            obtain ⟨n2, hn2, s2⟩ := ihPop ctx rest acc1 st1 res st' h
            refine ⟨n1 ++ n2, ?_, stepOk_trans s1 s2⟩
            rw [hn2, hn1, List.append_assoc]
      · simp only [hdl] at h
        exact ihPop ctx rest acc st res st' h

theorem master_crateWalkOnce (f : Nat)
    (ihPop : ∀ (ctx : Ctx) (children : List ChildItem) (acc : List Item)
      (st : SessionState) (res : List Item) (st' : SessionState),
      populateLoop ctx f children acc st = .ok (res, st') →
      ∃ new, res = acc ++ new ∧ StepOk st st' new) :
    ∀ (ctx : Ctx) (krate : CrateNum) (st : SessionState) (u : Unit)
      (st' : SessionState),
      crateWalkOnce ctx (f + 1) krate st = .ok (u, st') → StepOk st st' [] := by
  intro ctx krate st u st' h
  rw [crateWalkOnce] at h
  by_cases hk : (alLookup st.allCrateImpls krate).isNone
  · rw [if_pos hk] at h
    have hk' : alLookup st.allCrateImpls krate = none :=
      Option.isNone_iff_eq_none.mp hk
    cases hp : populateLoop ctx f (ctx.crateTopLevelItems krate) []
        { st with crateWalks := st.crateWalks ++ [krate] } with
    | error e =>
        simp only [hp, exc_bind_error] at h
        cases h
    | ok p =>
        obtain ⟨walkImpls, st2⟩ := p
        simp only [hp, exc_bind_ok] at h
        obtain ⟨new, hnew, s⟩ := ihPop ctx (ctx.crateTopLevelItems krate) []
          { st with crateWalks := st.crateWalks ++ [krate] } walkImpls st2 hp
        obtain ⟨h1, h2⟩ := exc_ok_pair _ _ _ _ h
        rw [List.nil_append] at hnew
        subst hnew
        subst h2
        exact stepOk_moveToStaging st st2 krate walkImpls hk' s
  · rw [if_neg hk] at h
    obtain ⟨h1, h2⟩ := exc_ok_pair _ _ _ _ h
    subst h2
    exact stepOk_refl st

theorem master_buildImpls (f : Nat)
    (ihInh : ∀ (ctx : Ctx) (did : DefId) (st : SessionState) (res : List Item)
      (st' : SessionState),
      buildInherent ctx f did st = .ok (res, st') → StepOk st st' res)
    (ihWalk : ∀ (ctx : Ctx) (krate : CrateNum) (st : SessionState) (u : Unit)
      (st' : SessionState),
      crateWalkOnce ctx f krate st = .ok (u, st') → StepOk st st' []) :
    ∀ (ctx : Ctx) (did : DefId) (st : SessionState) (res : List Item)
      (st' : SessionState),
      buildImpls ctx (f + 1) did st = .ok (res, st') → StepOk st st' res := by
  intro ctx did st res st' h
  rw [buildImpls] at h
  cases hI : buildInherent ctx f did st with
  | error e => rw [hI] at h; simp [exc_bind_error] at h
  | ok p =>
      obtain ⟨impls, st1⟩ := p
      rw [hI] at h
      simp only [exc_bind_ok] at h
      cases hW : crateWalkOnce ctx f did.krate st1 with
      | error e => rw [hW] at h; simp [exc_bind_error] at h
      | ok q =>
          obtain ⟨u, st2⟩ := q
          rw [hW] at h
          simp only [exc_bind_ok] at h
          obtain ⟨removed, hres, s3⟩ := harvestFinish_stepOk ctx did impls st2 st' res h
          have s1 := ihInh ctx did st impls st1 hI
          have s2 := ihWalk ctx did.krate st1 u st2 hW
          have := stepOk_trans (stepOk_trans s1 s2) s3
          rw [hres]
          simpa using this

theorem mkDefaultImplItem_ok (ctx : Ctx) (did : DefId) (attrs : List Attr)
    (t : Option TraitRef) (it : Item)
    (h : mkDefaultImplItem ctx did attrs t = .ok it) :
    it.name = none ∧ it.defId = did := by
  cases t with
  | none => simp [mkDefaultImplItem] at h
  | some tr =>
      cases hct : ctx.cleanTraitRef tr with
      | traitBound ty =>
          simp only [mkDefaultImplItem, hct] at h
          have := exc_ok_inj h
          subst this
          exact ⟨rfl, rfl⟩
      | regionBound lt => simp [mkDefaultImplItem, hct] at h

theorem master_buildImpl (f : Nat)
    (ihDeref : ∀ (ctx : Ctx) (targets : List DefId) (acc : List Item)
      (st : SessionState) (res : List Item) (st' : SessionState),
      buildDerefTargets ctx f targets acc st = .ok (res, st') →
      ∃ new, res = acc ++ new ∧ StepOk st st' new) :
    ∀ (ctx : Ctx) (did : DefId) (ret : List Item) (st : SessionState)
      (res : List Item) (st' : SessionState),
      buildImpl ctx (f + 1) did ret st = .ok (res, st') →
      ∃ new, res = ret ++ new ∧ StepOk st st' new := by
  intro ctx did ret st res st' h
  rw [buildImpl] at h
  by_cases hg : did ∈ st.renderinfo.inlined
  · rw [if_pos hg] at h
    obtain ⟨h1, h2⟩ := exc_ok_pair _ _ _ _ h
    subst h1; subst h2
    exact ⟨[], by simp, stepOk_refl st⟩
  · rw [if_neg hg] at h
    simp only [] at h
    by_cases ht : traitNotDocReachable ctx (ctx.implTraitRef did) = true
    · rw [if_pos ht] at h
      obtain ⟨h1, h2⟩ := exc_ok_pair _ _ _ _ h
      subst h1; subst h2
      exact ⟨[], by simp, stepOk_markInlined st did⟩
    · rw [if_neg ht] at h
      by_cases hdef : ctx.isDefaultImpl did = true
      · rw [if_pos hdef] at h
        cases hmk : mkDefaultImplItem ctx did (loadAttrs ctx did)
            (ctx.implTraitRef did) with
        | error e => rw [hmk] at h; simp [exc_bind_error] at h
        | ok it =>
            rw [hmk] at h
            simp only [exc_bind_ok] at h
            obtain ⟨h1, h2⟩ := exc_ok_pair _ _ _ _ h
            subst h1; subst h2
            obtain ⟨hname, hdid⟩ := mkDefaultImplItem_ok ctx did _ _ it hmk
            refine ⟨[it], rfl, ?_⟩
            have := stepOk_insertDerefPush st (markInlined st did) did [] it hg
              (stepOk_refl _) hdid hname
            simpa using this
      · rw [if_neg hdef] at h
        by_cases hty : typeNotDocReachable ctx
            (ctx.cleanTy (ctx.lookupItemType did).ty) = true
        · rw [if_pos hty] at h
          obtain ⟨h1, h2⟩ := exc_ok_pair _ _ _ _ h
          subst h1; subst h2
          exact ⟨[], by simp, stepOk_markInlined st did⟩
        · rw [if_neg hty] at h
          cases htm : translateImplMembers ctx (ctx.implTraitRef did).isSome
              (ctx.implItemIds did) with
          | error e => rw [htm] at h; simp [exc_bind_error] at h
          | ok traitItems =>
              rw [htm] at h
              simp only [exc_bind_ok] at h
              cases hct : cleanImplTrait ctx (ctx.implTraitRef did) with
              | error e => rw [hct] at h; simp [exc_bind_error] at h
              | ok trait_ =>
                  rw [hct] at h
                  simp only [exc_bind_ok] at h
                  by_cases hder : trait_.bind CType.defIdOf = ctx.derefTraitDid
                  · rw [if_pos hder] at h
                    cases hdt : buildDerefTargets ctx f
                        (ctx.derefTargetsOf traitItems) ret (markInlined st did) with
                    | error e => rw [hdt] at h; simp [exc_bind_error] at h
                    | ok p =>
                        obtain ⟨ret2, st2⟩ := p
                        rw [hdt] at h
                        simp only [exc_bind_ok] at h
                        obtain ⟨dnew, hdnew, sder⟩ := ihDeref ctx
                          (ctx.derefTargetsOf traitItems) ret (markInlined st did)
                          ret2 st2 hdt
                        obtain ⟨h1, h2⟩ := exc_ok_pair _ _ _ _ h
                        subst h2
                        refine ⟨dnew ++ [mkImplItem ctx did (loadAttrs ctx did)
                          trait_ (ctx.cleanTy (ctx.lookupItemType did).ty)
                          traitItems], ?_, ?_⟩
                        · rw [← h1, hdnew, List.append_assoc]
                        · exact stepOk_insertDerefPush st st2 did dnew _ hg sder
                            rfl rfl
                  · rw [if_neg hder] at h
                    obtain ⟨h1, h2⟩ := exc_ok_pair _ _ _ _ h
                    subst h2
                    refine ⟨[mkImplItem ctx did (loadAttrs ctx did) trait_
                      (ctx.cleanTy (ctx.lookupItemType did).ty) traitItems],
                      ?_, ?_⟩
                    · rw [← h1]
                    · have := stepOk_insertDerefPush st (markInlined st did) did
                        [] (mkImplItem ctx did (loadAttrs ctx did) trait_
                          (ctx.cleanTy (ctx.lookupItemType did).ty) traitItems)
                        hg (stepOk_refl _) rfl rfl
                      simpa using this

theorem masterAll : ∀ f, MasterAt f := by
  intro f
  induction f with
  | zero =>
      refine ⟨?_, ?_, ?_, ?_, ?_, ?_, ?_⟩
      · intro ctx did ret st res st' h
        simp [buildImpl] at h
      · intro ctx dids acc st res st' h
        simp [buildImplList] at h
      · intro ctx children acc st res st' h
        simp [populateLoop] at h
      · intro ctx targets acc st res st' h
        simp [buildDerefTargets] at h
      · intro ctx did st res st' h
        simp [buildInherent] at h
      · intro ctx krate st u st' h
        simp [crateWalkOnce] at h
      · intro ctx did st res st' h
        simp [buildImpls] at h
  | succ f ih =>
      obtain ⟨iImpl, iList, iPop, iDeref, iInh, iWalk, iImpls⟩ := ih
      exact ⟨master_buildImpl f iDeref,
             master_buildImplList f iImpl iList,
             master_populateLoop f iImpl iPop,
             master_derefTargets f iImpls iDeref,
             master_buildInherent f iList,
             master_crateWalkOnce f iPop,
             master_buildImpls f iInh iWalk⟩

theorem buildImpl_stepOk (ctx : Ctx) (f : Nat) (did : DefId) (ret : List Item)
    (st : SessionState) (res : List Item) (st' : SessionState)
    (h : buildImpl ctx f did ret st = .ok (res, st')) :
    ∃ new, res = ret ++ new ∧ StepOk st st' new :=
  (masterAll f).1 ctx did ret st res st' h

theorem buildImplList_stepOk (ctx : Ctx) (f : Nat) (dids : List DefId)
    (acc : List Item) (st : SessionState) (res : List Item)
    (st' : SessionState)
    (h : buildImplList ctx f dids acc st = .ok (res, st')) :
    ∃ new, res = acc ++ new ∧ StepOk st st' new :=
  (masterAll f).2.1 ctx dids acc st res st' h

theorem buildImpls_stepOk (ctx : Ctx) (f : Nat) (did : DefId)
    (st : SessionState) (res : List Item) (st' : SessionState)
    (h : buildImpls ctx f did st = .ok (res, st')) : StepOk st st' res :=
  (masterAll f).2.2.2.2.2.2 ctx did st res st' h

theorem buildImpl_marks (ctx : Ctx) (f : Nat) (did : DefId) (ret : List Item)
    (st : SessionState) (res : List Item) (st' : SessionState)
    (h : buildImpl ctx f did ret st = .ok (res, st')) :
    did ∈ st'.renderinfo.inlined := by
  cases f with
  | zero => simp [buildImpl] at h
  | succ f =>
      rw [buildImpl] at h
      by_cases hg : did ∈ st.renderinfo.inlined
      · rw [if_pos hg] at h
        obtain ⟨h1, h2⟩ := exc_ok_pair _ _ _ _ h
        subst h2
        exact hg
      · rw [if_neg hg] at h
        simp only [] at h
        have hself : did ∈ (markInlined st did).renderinfo.inlined :=
          (markInlined_mem st did did).mpr (Or.inl rfl)
        by_cases ht : traitNotDocReachable ctx (ctx.implTraitRef did) = true
        · rw [if_pos ht] at h
          obtain ⟨h1, h2⟩ := exc_ok_pair _ _ _ _ h
          subst h2
          exact hself
        · rw [if_neg ht] at h
          by_cases hdef : ctx.isDefaultImpl did = true
          · rw [if_pos hdef] at h
            cases hmk : mkDefaultImplItem ctx did (loadAttrs ctx did)
                (ctx.implTraitRef did) with
            | error e => rw [hmk] at h; simp [exc_bind_error] at h
            | ok it =>
                rw [hmk] at h
                simp only [exc_bind_ok] at h
                obtain ⟨h1, h2⟩ := exc_ok_pair _ _ _ _ h
                subst h2
                exact hself
          · rw [if_neg hdef] at h
            by_cases hty : typeNotDocReachable ctx
                (ctx.cleanTy (ctx.lookupItemType did).ty) = true
            · rw [if_pos hty] at h
              obtain ⟨h1, h2⟩ := exc_ok_pair _ _ _ _ h
              subst h2
              exact hself
            · rw [if_neg hty] at h
              cases htm : translateImplMembers ctx (ctx.implTraitRef did).isSome
                  (ctx.implItemIds did) with
              | error e => rw [htm] at h; simp [exc_bind_error] at h
              | ok traitItems =>
                  rw [htm] at h
                  simp only [exc_bind_ok] at h
                  cases hct : cleanImplTrait ctx (ctx.implTraitRef did) with
                  | error e => rw [hct] at h; simp [exc_bind_error] at h
                  | ok trait_ =>
                      rw [hct] at h
                      simp only [exc_bind_ok] at h
                      by_cases hder : trait_.bind CType.defIdOf = ctx.derefTraitDid
                      · rw [if_pos hder] at h
                        cases hdt : buildDerefTargets ctx f
                            (ctx.derefTargetsOf traitItems) ret
                            (markInlined st did) with
                        | error e => rw [hdt] at h; simp [exc_bind_error] at h
                        | ok p =>
                            obtain ⟨ret2, st2⟩ := p
                            rw [hdt] at h
                            simp only [exc_bind_ok] at h
                            obtain ⟨dnew, hdnew, sder⟩ :=
                              (masterAll f).2.2.2.1 ctx
                                (ctx.derefTargetsOf traitItems) ret
                                (markInlined st did) ret2 st2 hdt
                            obtain ⟨h1, h2⟩ := exc_ok_pair _ _ _ _ h
                            subst h2
                            exact sder.inlined_mono did hself
                      · rw [if_neg hder] at h
                        obtain ⟨h1, h2⟩ := exc_ok_pair _ _ _ _ h
                        subst h2
                        exact hself

theorem buildImplList_marks (ctx : Ctx) (f : Nat) (dids : List DefId)
    (acc : List Item) (st : SessionState) (res : List Item)
    (st' : SessionState)
    (h : buildImplList ctx f dids acc st = .ok (res, st')) :
    ∀ d ∈ dids, d ∈ st'.renderinfo.inlined := by
  induction f generalizing dids acc st res st' with
  | zero => simp [buildImplList] at h
  | succ f ih =>
      cases dids with
      | nil => intro d hd; cases hd
      | cons d0 rest =>
          rw [buildImplList] at h
          cases hbi : buildImpl ctx f d0 acc st with
          | error e => rw [hbi] at h; simp [exc_bind_error] at h
          | ok p =>
              obtain ⟨acc1, st1⟩ := p
              rw [hbi] at h
              simp only [exc_bind_ok] at h
              intro d hd
              rcases List.mem_cons.mp hd with rfl | hd'
              · have h0 := buildImpl_marks ctx f d acc st acc1 st1 hbi
                obtain ⟨n2, hn2, s2⟩ := buildImplList_stepOk ctx f rest acc1 st1
                  res st' h
                exact s2.inlined_mono d h0
              · exact ih rest acc1 st1 res st' h d hd'

theorem buildImplList_second (ctx : Ctx) (f : Nat) (dids : List DefId)
    (acc : List Item) (st : SessionState) (res : List Item)
    (st' : SessionState) (acc₂ : List Item) (st₂ : SessionState)
    (h : buildImplList ctx f dids acc st = .ok (res, st'))
    (hall : ∀ d ∈ dids, d ∈ st₂.renderinfo.inlined) :
    buildImplList ctx f dids acc₂ st₂ = .ok (acc₂, st₂) := by
  induction f generalizing dids acc st res st' acc₂ with
  | zero => simp [buildImplList] at h
  | succ f ih =>
      cases dids with
      | nil => rw [buildImplList]
      | cons d0 rest =>
          rw [buildImplList] at h
          cases hbi : buildImpl ctx f d0 acc st with
          | error e => rw [hbi] at h; simp [exc_bind_error] at h
          | ok p =>
              obtain ⟨acc1, st1⟩ := p
              rw [hbi] at h
              simp only [exc_bind_ok] at h
              have hf : f ≠ 0 := by
                intro hf0
                subst hf0
                simp [buildImpl] at hbi
              obtain ⟨f', rfl⟩ : ∃ f', f = f' + 1 := by
                cases f with
                | zero => exact absurd rfl hf
                | succ f' => exact ⟨f', rfl⟩
              rw [buildImplList]
              rw [show buildImpl ctx (f' + 1) d0 acc₂ st₂ = .ok (acc₂, st₂) by
                rw [buildImpl, if_pos (hall d0 (List.mem_cons_self d0 rest))]]
              simp only [exc_bind_ok]
              exact ih rest acc1 st1 res st' acc₂ h
                (fun d hd => hall d (List.mem_cons_of_mem d0 hd))

theorem crateWalkOnce_stepOk (ctx : Ctx) (f : Nat) (krate : CrateNum)
    (st : SessionState) (u : Unit) (st' : SessionState)
    (h : crateWalkOnce ctx f krate st = .ok (u, st')) : StepOk st st' [] :=
  (masterAll f).2.2.2.2.2.1 ctx krate st u st' h

theorem buildImpls_key (ctx : Ctx) (f : Nat) (did : DefId)
    (st : SessionState) (r : List Item) (st' : SessionState)
    (h : buildImpls ctx f did st = .ok (r, st')) :
    (alLookup st'.allCrateImpls did.krate).isSome := by
  cases f with
  | zero => simp [buildImpls] at h
  | succ f =>
      rw [buildImpls] at h
      cases hI : buildInherent ctx f did st with
      | error e => rw [hI] at h; cases h
      | ok p =>
          obtain ⟨impls, st1⟩ := p
          rw [hI] at h
          simp only [exc_bind_ok] at h
          cases hW : crateWalkOnce ctx f did.krate st1 with
          | error e => rw [hW] at h; cases h
          | ok q =>
              obtain ⟨u, st2⟩ := q
              rw [hW] at h
              simp only [exc_bind_ok] at h
              obtain ⟨lMid, h1, h2, h3, h4, h5⟩ :=
                harvestFinish_spec ctx did impls st2 st' r h
              rw [h3]
              simp [alLookup_alInsert_self]

theorem buildImpls_second (ctx : Ctx) (f : Nat) (did : DefId)
    (st : SessionState) (r : List Item) (st' : SessionState)
    (st₂ : SessionState)
    (h : buildImpls ctx f did st = .ok (r, st'))
    (hkey : (alLookup st₂.allCrateImpls did.krate).isSome)
    (hinl : ∀ d, d ∈ st'.renderinfo.inlined → d ∈ st₂.renderinfo.inlined) :
    ∃ r₂ st₂', buildImpls ctx f did st₂ = .ok (r₂, st₂') := by
  cases f with
  | zero => simp [buildImpls] at h
  | succ f =>
      rw [buildImpls] at h
      cases hI : buildInherent ctx f did st with
      | error e => rw [hI] at h; cases h
      | ok p =>
          obtain ⟨impls, st1⟩ := p
          rw [hI] at h
          simp only [exc_bind_ok] at h
          cases hW : crateWalkOnce ctx f did.krate st1 with
          | error e => rw [hW] at h; cases h
          | ok q =>
              obtain ⟨u, st2⟩ := q
              rw [hW] at h
              simp only [exc_bind_ok] at h
              obtain ⟨fW, rfl⟩ : ∃ fW, f = fW + 1 := by
                cases f with
                | zero => simp [crateWalkOnce] at hW
                | succ fW => exact ⟨fW, rfl⟩
              obtain ⟨lMid, h1, h2, h3, h4, h5⟩ :=
                harvestFinish_spec ctx did impls st2 st' r h
              have hpres : st'.renderinfo = st2.renderinfo := by rw [h3]
              obtain ⟨l₂, hl₂⟩ := Option.isSome_iff_exists.mp hkey
              have hInh2 : buildInherent ctx (fW + 1) did st₂ = .ok ([], st₂) := by
                rw [buildInherent] at hI ⊢
                cases hih : ctx.inherentImpls did with
                | none => simp only [hih]
                | some dids =>
                    simp only [hih] at hI ⊢
                    have hmk := buildImplList_marks ctx fW dids [] st
                      impls st1 hI
                    have s1 := crateWalkOnce_stepOk ctx (fW + 1) did.krate
                      st1 u st2 hW
                    refine buildImplList_second ctx fW dids [] st impls st1
                      [] st₂ hI (fun d hd => hinl d ?_)
                    rw [hpres]
                    exact s1.inlined_mono d (hmk d hd)
              have hWalk2 : crateWalkOnce ctx (fW + 1) did.krate st₂ =
                  .ok ((), st₂) := by
                rw [crateWalkOnce]
                simp [hl₂]
              refine ⟨(harvestStep (harvestPred did) l₂.length l₂ []).2,
                { st₂ with
                  allCrateImpls := alInsert st₂.allCrateImpls did.krate
                    ((harvestStep (harvestPred did) l₂.length l₂ []).1) }, ?_⟩
              rw [buildImpls, hInh2]
              simp only [exc_bind_ok]
              rw [hWalk2]
              simp only [exc_bind_ok]
              unfold harvestFinish
              rw [hl₂]
              rfl

/-- C5: for every definition identity not yet in the session's
impl-inlined-set, a successful `build_impl` call followed by a second call
on the same identity is idempotent on the second call: the dedup guard at
the top of `build_impl` fires (the first call marked the identity inlined
on every successful path) and the second call returns with the output list
and the session state exactly unchanged. -/
theorem c5_build_impl_idempotent (ctx : Ctx) (f g : Nat) (did : DefId)
    (ret ret₁ : List Item) (st st₁ : SessionState)
    (h0 : did ∉ st.renderinfo.inlined)
    (h1 : buildImpl ctx f did ret st = .ok (ret₁, st₁)) :
    buildImpl ctx (g + 1) did ret₁ st₁ = .ok (ret₁, st₁) := by
  have hmem := buildImpl_marks ctx f did ret st ret₁ st₁ h1
  rw [buildImpl, if_pos hmem]

theorem c5_build_impl_idempotent_witness :
    ((⟨1, 7⟩ : DefId) ∉ SessionState.empty.renderinfo.inlined) ∧
    buildImpl c5Ctx 2 ⟨1, 7⟩ [] SessionState.empty = .ok ([], c5St1) ∧
    buildImpl c5Ctx 1 ⟨1, 7⟩ [] c5St1 = .ok ([], c5St1) :=
  ⟨by decide, rfl,
    c5_build_impl_idempotent c5Ctx 2 0 ⟨1, 7⟩ [] [] SessionState.empty c5St1
      (by decide) rfl⟩

/-- C6: when `build_impls` runs for two identities of the same crate, the
second call observes the per-crate staging cache already populated (the
crate's key is present after the first call), it does not trigger the
full-crate walk again (the ghost walk count for that crate is unchanged),
and no impl item returned by the first call is returned again by the second
— the staging entries are moved out, so the disjointness holds
unconditionally, with no exception needed even for primitive-type impls. -/
theorem c6_crate_walk_once (ctx : Ctx) (f g : Nat) (d1 d2 : DefId)
    (st0 st1 st2 : SessionState) (r1 r2 : List Item)
    (hinv : SessInv st0 [])
    (h1 : buildImpls ctx f d1 st0 = .ok (r1, st1))
    (h2 : buildImpls ctx g d2 st1 = .ok (r2, st2))
    (hk : d1.krate = d2.krate) :
    (alLookup st1.allCrateImpls d2.krate).isSome ∧
    st2.crateWalks.count d2.krate = st1.crateWalks.count d2.krate ∧
    ∀ i ∈ r1, i ∉ r2 := by
  have hkey : (alLookup st1.allCrateImpls d2.krate).isSome := by
    rw [← hk]
    exact buildImpls_key ctx f d1 st0 r1 st1 h1
  have s1 := buildImpls_stepOk ctx f d1 st0 r1 st1 h1
  have s2 := buildImpls_stepOk ctx g d2 st1 r2 st2 h2
  refine ⟨hkey, s2.walks_eq d2.krate hkey, ?_⟩
  have hinv1 : SessInv st1 r1 := by
    have h := s1.inv_step [] hinv
    simpa using h
  obtain ⟨hnd, _⟩ := s2.inv_step r1 hinv1
  rw [didsOf, List.map_append, List.map_append] at hnd
  have hnd2 : ((r1.map Item.defId) ++ (r2.map Item.defId)).Nodup :=
    hnd.of_append_left
  have hdisj := List.disjoint_of_nodup_append hnd2
  intro i hi1 hi2
  exact hdisj (List.mem_map_of_mem Item.defId hi1)
    (List.mem_map_of_mem Item.defId hi2)

theorem c6_crate_walk_once_witness :
    SessInv SessionState.empty [] ∧
    buildImpls baseCtx 3 ⟨1, 10⟩ SessionState.empty = .ok ([], c6St1) ∧
    buildImpls baseCtx 3 ⟨1, 11⟩ c6St1 = .ok ([], c6St1) ∧
    ((alLookup c6St1.allCrateImpls 1).isSome ∧
      c6St1.crateWalks.count 1 = c6St1.crateWalks.count 1 ∧
      ∀ i ∈ ([] : List Item), i ∉ ([] : List Item)) := by
  have hinv : SessInv SessionState.empty [] :=
    ⟨by simp [didsOf, stagingAll, SessionState.empty],
     by simp [stagingAll, SessionState.empty]⟩
  exact ⟨hinv, rfl, rfl,
    c6_crate_walk_once baseCtx 3 3 ⟨1, 10⟩ ⟨1, 11⟩ SessionState.empty c6St1
      c6St1 [] [] hinv rfl rfl rfl⟩

theorem exc_bind_congr {ε α β : Type} (x : Except ε α)
    (k₁ k₂ : α → Except ε β) (h : ∀ a, k₁ a = k₂ a) :
    (x >>= k₁) = (x >>= k₂) := by
  cases x with
  | error e => rfl
  | ok a => exact h a

theorem maskVisited_cons (seen : List Def) (dd : Def) (v : TyVisibility)
    (rest : List ChildItem) :
    maskVisited seen (⟨.dlDef dd, v⟩ :: rest) =
      (if dd.isForeignMod then ⟨.dlDef dd, v⟩ :: maskVisited seen rest
       else if v = .publicVis then
         if dd ∈ seen then
           ⟨.dlDef dd, .restrictedVis⟩ :: maskVisited seen rest
         else ⟨.dlDef dd, v⟩ :: maskVisited (dd :: seen) rest
       else ⟨.dlDef dd, v⟩ :: maskVisited seen rest) := by
  cases dd <;> rfl

theorem publicDefs_cons (dd : Def) (v : TyVisibility)
    (rest : List ChildItem) :
    publicDefs (⟨.dlDef dd, v⟩ :: rest) =
      (if dd.isForeignMod then publicDefs rest
       else if v = .publicVis then dd :: publicDefs rest
       else publicDefs rest) := by
  cases dd <;> rfl

theorem fillInLoop_cons (ctx : Ctx) (f : Nat) (dd : Def) (v : TyVisibility)
    (rest : List ChildItem) (vis : List Def) (items : List Item)
    (st : SessionState) :
    fillInLoop ctx (f + 1) (⟨.dlDef dd, v⟩ :: rest) vis items st =
      (if dd.isForeignMod then do
        let (items, st) ← fillIn ctx f dd.defId items st
        fillInLoop ctx f rest vis items st
       else if v = .publicVis then
         if dd ∈ vis then fillInLoop ctx f rest vis items st
         else do
           let (res, st) ← tryInlineDef ctx f dd st
           fillInLoop ctx f rest (dd :: vis) (items ++ res.getD []) st
       else fillInLoop ctx f rest vis items st) := by
  cases dd <;> rfl

theorem maskVisited_not_seen : ∀ (cs : List ChildItem) (seen : List Def),
    ∀ d ∈ publicDefs (maskVisited seen cs), d ∉ seen := by
  intro cs
  induction cs with
  | nil =>
      intro seen d hd
      simp [maskVisited, publicDefs] at hd
  | cons c rest ih =>
      intro seen d hd
      obtain ⟨dl, v⟩ := c
      cases dl with
      | dlField =>
          simp only [maskVisited, publicDefs] at hd
          exact ih seen d hd
      | dlImpl i =>
          simp only [maskVisited, publicDefs] at hd
          exact ih seen d hd
      | dlDef dd =>
          rw [maskVisited_cons] at hd
          split_ifs at hd with hf hv hs
          · rw [publicDefs_cons, if_pos hf] at hd
            exact ih seen d hd
          · rw [publicDefs_cons, if_neg hf, if_neg (by decide :
              ¬(TyVisibility.restrictedVis = TyVisibility.publicVis))] at hd
            exact ih seen d hd
          · rw [publicDefs_cons, if_neg hf, if_pos hv] at hd
            rcases List.mem_cons.mp hd with rfl | hd2
            · exact hs
            · have h2 := ih _ d hd2
              intro hmem
              exact h2 (List.mem_cons_of_mem _ hmem)
          · rw [publicDefs_cons, if_neg hf, if_neg hv] at hd
            exact ih seen d hd

theorem maskVisited_nodup : ∀ (cs : List ChildItem) (seen : List Def),
    (publicDefs (maskVisited seen cs)).Nodup := by
  intro cs
  induction cs with
  | nil =>
      intro seen
      simp [maskVisited, publicDefs]
  | cons c rest ih =>
      intro seen
      obtain ⟨dl, v⟩ := c
      cases dl with
      | dlField =>
          simp only [maskVisited, publicDefs]
          exact ih seen
      | dlImpl i =>
          simp only [maskVisited, publicDefs]
          exact ih seen
      | dlDef dd =>
          rw [maskVisited_cons]
          split_ifs with hf hv hs
          · rw [publicDefs_cons, if_pos hf]
            exact ih seen
          · rw [publicDefs_cons, if_neg hf, if_neg (by decide :
              ¬(TyVisibility.restrictedVis = TyVisibility.publicVis))]
            exact ih seen
          · rw [publicDefs_cons, if_neg hf, if_pos hv, List.nodup_cons]
            refine ⟨?_, ih _⟩
            intro hmem
            exact maskVisited_not_seen rest _ _ hmem (List.mem_cons_self _ _)
          · rw [publicDefs_cons, if_neg hf, if_neg hv]
            exact ih seen

theorem fillInLoop_maskVisited (ctx : Ctx) : ∀ (f : Nat)
    (cs : List ChildItem) (vis : List Def) (items : List Item)
    (st : SessionState),
    fillInLoop ctx f cs vis items st =
      fillInLoop ctx f (maskVisited vis cs) vis items st := by
  intro f
  induction f with
  | zero =>
      intro cs vis items st
      rfl
  | succ f ih =>
      intro cs vis items st
      cases cs with
      | nil => rfl
      | cons c rest =>
          obtain ⟨dl, v⟩ := c
          cases dl with
          | dlField => rfl
          | dlImpl i =>
              show fillInLoop ctx f rest vis items st = _
              exact ih rest vis items st
          | dlDef dd =>
              rw [fillInLoop_cons, maskVisited_cons]
              split_ifs with hf hv hs
              · rw [fillInLoop_cons, if_pos hf]
                refine exc_bind_congr _ _ _ ?_
                rintro ⟨items2, st2⟩
                exact ih rest vis items2 st2
              · rw [fillInLoop_cons, if_neg (by decide :
                  ¬(TyVisibility.restrictedVis = TyVisibility.publicVis))]
                rw [if_neg hf]
                exact ih rest vis items st
              · rw [fillInLoop_cons, if_neg hf, if_pos hv, if_neg hs]
                refine exc_bind_congr _ _ _ ?_
                rintro ⟨res, st2⟩
                exact ih rest _ _ _
              · rw [fillInLoop_cons, if_neg hf, if_neg hv]
                exact ih rest vis items st

/-- C1 (amended): within a single `fill_in` call the per-call visited set
deduplicates the public definitions of the child list being walked: the
walk over the original list equals the walk over the same list with every
already-seen public definition demoted to non-public (hence contributing
nothing), and in the demoted list each public definition occurs at most
once and never in the incoming visited set.  The original claim's
module-wide uniqueness is refuted separately: the visited set is per call,
so a definition reachable both directly and through a flattened
foreign-module wrapper is dispatched once per call and can appear twice in
the module's flattened child items. -/
theorem c1_per_call_dedup (ctx : Ctx) (f : Nat) (cs : List ChildItem)
    (vis : List Def) (items : List Item) (st : SessionState) :
    fillInLoop ctx f cs vis items st =
      fillInLoop ctx f (maskVisited vis cs) vis items st ∧
    (publicDefs (maskVisited vis cs)).Nodup ∧
    ∀ d ∈ publicDefs (maskVisited vis cs), d ∉ vis :=
  ⟨fillInLoop_maskVisited ctx f cs vis items st,
   maskVisited_nodup cs vis,
   fun d hd => maskVisited_not_seen cs vis d hd⟩

/-- C1 counterexample: the flattened child list produced by `build_module`
for module `⟨1,10⟩` of `c1Ctx` contains two items originating from the same
definition identity `⟨1,20⟩` — the per-call visited set of `fill_in` does
not deduplicate across the recursive call that flattens the foreign-module
wrapper. -/
theorem c1_per_call_dedup_counterexample :
    defIdCount (itemsOfRes (buildModule c1Ctx 10 ⟨1, 10⟩ SessionState.empty))
      ⟨1, 20⟩ = 2 := by
  decide

theorem Item.name_withName (a : Item) (n : Option String) :
    (a.withName n).name = n := by
  cases a
  rfl

theorem stagingAll_recordExternFqn (ctx : Ctx) (st : SessionState)
    (did : DefId) (kind : TypeKind) :
    stagingAll (recordExternFqn ctx st did kind) = stagingAll st := by
  unfold recordExternFqn
  split_ifs <;> rfl

theorem names_of_append_envelope (ctx : Ctx) (did : DefId) (inner : ItemEnum)
    (ret : List Item) (hr : ∀ i ∈ ret, i.name = none) :
    (((ret ++ [mkEnvelope ctx did inner]).filter
        (fun i => i.name.isSome)).length ≤ 1) ∧
    ∀ i ∈ ret ++ [mkEnvelope ctx did inner], i.name.isSome →
      i.name = some (ctx.itemName did) := by
  constructor
  · rw [List.filter_append]
    have hnil : ret.filter (fun i => i.name.isSome) = [] := by
      rw [List.filter_eq_nil_iff]
      intro i hi
      simp [hr i hi]
    rw [hnil]
    simp [mkEnvelope, Item.name]
  · intro i hi hsome
    rcases List.mem_append.mp hi with hi | hi
    · rw [hr i hi] at hsome
      simp at hsome
    · rw [List.mem_singleton.mp hi]
      rfl

theorem tryInlineDef_names (ctx : Ctx) (f : Nat) (d : Def)
    (st : SessionState) (items : List Item) (st' : SessionState)
    (hn : ∀ i ∈ stagingAll st, i.name = none)
    (h : tryInlineDef ctx f d st = .ok (some items, st')) :
    ((items.filter (fun i => i.name.isSome)).length ≤ 1) ∧
    ∀ i ∈ items, i.name.isSome → i.name = some (ctx.itemName d.defId) := by
  cases f with
  | zero => cases d <;> simp [tryInlineDef] at h
  | succ f =>
      cases d with
      | traitD tdid =>
          rw [tryInlineDef] at h
          have h3 := congrArg Prod.fst (exc_ok_inj h)
          simp only [finishInline] at h3
          obtain rfl := (Option.some.inj h3)
          exact names_of_append_envelope ctx tdid _ []
            (fun i hi => absurd hi (List.not_mem_nil i))
      | fnD fdid =>
          rw [tryInlineDef] at h
          cases hfn : buildExternalFunction ctx fdid with
          | error e => rw [hfn] at h; cases h
          | ok fn =>
              rw [hfn] at h
              have h3 := congrArg Prod.fst (exc_ok_inj h)
              simp only [finishInline] at h3
              obtain rfl := (Option.some.inj h3)
              exact names_of_append_envelope ctx fdid _ []
                (fun i hi => absurd hi (List.not_mem_nil i))
      | structD sdid =>
          rw [tryInlineDef] at h
          by_cases hts : ctx.tupleStructCtor sdid = true
          · rw [if_pos hts] at h
            have h3 := congrArg Prod.fst (exc_ok_inj h)
            cases h3
          · rw [if_neg hts] at h
            simp only [] at h
            cases hbi : buildImpls ctx f sdid
                (recordExternFqn ctx st sdid .typeStruct) with
            | error e => rw [hbi] at h; simp [exc_bind_error] at h
            | ok p =>
                obtain ⟨impls, st1⟩ := p
                rw [hbi] at h
                simp only [exc_bind_ok] at h
                have h3 := congrArg Prod.fst (exc_ok_inj h)
                simp only [finishInline] at h3
                obtain rfl := (Option.some.inj h3)
                have hun : ∀ i ∈ impls, i.name = none := by
                  have hs := (buildImpls_stepOk ctx f sdid _ impls st1
                    hbi).names_step (by rw [stagingAll_recordExternFqn]; exact hn)
                  exact hs.2
                exact names_of_append_envelope ctx sdid _ impls hun
      | tyAliasD adid =>
          rw [tryInlineDef] at h
          simp only [] at h
          cases hbi : buildImpls ctx f adid
              (recordExternFqn ctx st adid .typeTypedef) with
          | error e => rw [hbi] at h; simp [exc_bind_error] at h
          | ok p =>
              obtain ⟨impls, st1⟩ := p
              rw [hbi] at h
              simp only [exc_bind_ok] at h
              have h3 := congrArg Prod.fst (exc_ok_inj h)
              simp only [finishInline] at h3
              obtain rfl := (Option.some.inj h3)
              have hun : ∀ i ∈ impls, i.name = none := by
                have hs := (buildImpls_stepOk ctx f adid _ impls st1
                  hbi).names_step (by rw [stagingAll_recordExternFqn]; exact hn)
                exact hs.2
              exact names_of_append_envelope ctx adid _ impls hun
      | enumD edid =>
          rw [tryInlineDef] at h
          simp only [] at h
          cases hbi : buildImpls ctx f edid
              (recordExternFqn ctx st edid .typeEnum) with
          | error e => rw [hbi] at h; simp [exc_bind_error] at h
          | ok p =>
              obtain ⟨impls, st1⟩ := p
              rw [hbi] at h
              simp only [exc_bind_ok] at h
              have h3 := congrArg Prod.fst (exc_ok_inj h)
              simp only [finishInline] at h3
              obtain rfl := (Option.some.inj h3)
              have hun : ∀ i ∈ impls, i.name = none := by
                have hs := (buildImpls_stepOk ctx f edid _ impls st1
                  hbi).names_step (by rw [stagingAll_recordExternFqn]; exact hn)
                exact hs.2
              exact names_of_append_envelope ctx edid _ impls hun
      | variantD vdid =>
          rw [tryInlineDef] at h
          have h3 := congrArg Prod.fst (exc_ok_inj h)
          obtain rfl := (Option.some.inj h3)
          exact ⟨by simp, fun i hi => absurd hi (List.not_mem_nil i)⟩
      | modD mdid =>
          rw [tryInlineDef] at h
          simp only [] at h
          cases hm : buildModule ctx f mdid
              (recordExternFqn ctx st mdid .typeModule) with
          | error e => rw [hm] at h; simp [exc_bind_error] at h
          | ok p =>
              obtain ⟨ms, st1⟩ := p
              rw [hm] at h
              simp only [exc_bind_ok] at h
              have h3 := congrArg Prod.fst (exc_ok_inj h)
              simp only [finishInline] at h3
              obtain rfl := (Option.some.inj h3)
              exact names_of_append_envelope ctx mdid _ []
                (fun i hi => absurd hi (List.not_mem_nil i))
      | staticD sdid mtbl =>
          rw [tryInlineDef] at h
          have h3 := congrArg Prod.fst (exc_ok_inj h)
          simp only [finishInline] at h3
          obtain rfl := (Option.some.inj h3)
          exact names_of_append_envelope ctx sdid _ []
            (fun i hi => absurd hi (List.not_mem_nil i))
      | constD cdid =>
          rw [tryInlineDef] at h
          cases hc : buildConst ctx cdid with
          | error e => rw [hc] at h; cases h
          | ok c =>
              rw [hc] at h
              have h3 := congrArg Prod.fst (exc_ok_inj h)
              simp only [finishInline] at h3
              obtain rfl := (Option.some.inj h3)
              exact names_of_append_envelope ctx cdid _ []
                (fun i hi => absurd hi (List.not_mem_nil i))
      | associatedConstD cdid =>
          rw [tryInlineDef] at h
          cases hc : buildConst ctx cdid with
          | error e => rw [hc] at h; cases h
          | ok c =>
              rw [hc] at h
              have h3 := congrArg Prod.fst (exc_ok_inj h)
              simp only [finishInline] at h3
              obtain rfl := (Option.some.inj h3)
              exact names_of_append_envelope ctx cdid _ []
                (fun i hi => absurd hi (List.not_mem_nil i))
      | foreignModD fdid =>
          rw [tryInlineDef] at h
          have h3 := congrArg Prod.fst (exc_ok_inj h)
          cases h3
      | otherD odid =>
          rw [tryInlineDef] at h
          have h3 := congrArg Prod.fst (exc_ok_inj h)
          cases h3

theorem tryInlineDef_fn (ctx : Ctx) (f : Nat) (fdid : DefId)
    (st : SessionState) (res : Option (List Item)) (st' : SessionState)
    (h : tryInlineDef ctx f (.fnD fdid) st = .ok (res, st')) :
    ∃ fn, buildExternalFunction ctx fdid = .ok fn ∧
      res = some [mkEnvelope ctx fdid (.functionItem fn)] := by
  cases f with
  | zero => simp [tryInlineDef] at h
  | succ f =>
      rw [tryInlineDef] at h
      cases hfn : buildExternalFunction ctx fdid with
      | error e => rw [hfn] at h; cases h
      | ok fn =>
          rw [hfn] at h
          refine ⟨fn, rfl, ?_⟩
          have h3 := congrArg Prod.fst (exc_ok_inj h)
          simp only [finishInline] at h3
          rw [← h3]
          rfl

theorem filter_isSome_map_rename (nm : String) : ∀ (l : List Item),
    ((l.map (fun item => if item.name.isSome then item.withName (some nm)
        else item)).filter (fun i => i.name.isSome)).length =
    (l.filter (fun i => i.name.isSome)).length := by
  intro l
  induction l with
  | nil => rfl
  | cons a l ih =>
      simp only [List.map_cons]
      by_cases ha : a.name.isSome = true
      · rw [if_pos ha]
        simp only [List.filter_cons, Item.name_withName, ha]
        simp [ih]
      · rw [if_neg ha]
        simp only [List.filter_cons]
        simp [ha, ih]

/-- C3: when `try_inline` succeeds with a rename supplied, every produced
item that carries a name has it overwritten to the rename, at most one
produced item carries a name (the harvested impl items are nameless), and
in the external-function scenario the output is exactly one item whose
name is the rename. -/
theorem c3_rename_applied (ctx : Ctx) (f : Nat) (id : Nat) (nm : String)
    (st : SessionState) (items : List Item) (st' : SessionState)
    (hn : ∀ i ∈ stagingAll st, i.name = none)
    (h : tryInline ctx f id (some nm) st = .ok (some items, st')) :
    ((items.filter (fun i => i.name.isSome)).length ≤ 1) ∧
    (∀ i ∈ items, i.name.isSome → i.name = some nm) ∧
    (∀ fdid, ctx.defMap id = some (.fnD fdid) →
      ∃ it, items = [it] ∧ it.name = some nm) := by
  rw [tryInline] at h
  cases htcx : ctx.hasTcx with
  | false => simp [htcx] at h
  | true =>
      simp only [htcx, Bool.not_true, Bool.false_eq_true, if_false] at h
      cases hdm : ctx.defMap id with
      | none => rw [hdm] at h; simp at h
      | some d =>
          rw [hdm] at h
          simp only [] at h
          by_cases hloc : (d.defId).isLocal = true
          · rw [if_pos hloc] at h
            simp at h
          · rw [if_neg hloc] at h
            cases hti : tryInlineDef ctx f d st with
            | error e => rw [hti] at h; simp [exc_bind_error] at h
            | ok p =>
                obtain ⟨res, st1⟩ := p
                rw [hti] at h
                simp only [exc_bind_ok] at h
                cases res with
                | none => simp at h
                | some l0 =>
                    have h2 := exc_ok_inj h
                    have hfst := congrArg Prod.fst h2
                    simp only [Option.map_some] at hfst
                    obtain rfl := Option.some.inj hfst
                    obtain ⟨hlen, hname⟩ :=
                      tryInlineDef_names ctx f d st l0 st1 hn hti
                    refine ⟨?_, ?_, ?_⟩
                    · rw [filter_isSome_map_rename]
                      exact hlen
                    · intro i hi hsome
                      obtain ⟨a, ha, rfl⟩ := List.mem_map.mp hi
                      by_cases han : a.name.isSome = true
                      · rw [if_pos han, Item.name_withName]
                      · rw [if_neg han] at hsome ⊢
                        exact absurd hsome han
                    · intro fdid hfd
                      obtain rfl := Option.some.inj hfd
                      obtain ⟨fn, hfn, hres⟩ :=
                        tryInlineDef_fn ctx f fdid st (some l0) st1 hti
                      obtain rfl := Option.some.inj hres
                      refine ⟨(mkEnvelope ctx fdid
                        (.functionItem fn)).withName (some nm), ?_, ?_⟩
                      · simp [mkEnvelope, Item.name]
                      · rw [Item.name_withName]

theorem c3_rename_applied_witness :
    (∀ i ∈ stagingAll SessionState.empty, i.name = none) ∧
    tryInline c3Ctx 2 5 (some "bar") SessionState.empty =
      .ok (some [c3Item], c3St) ∧
    ((([c3Item].filter (fun i => i.name.isSome)).length ≤ 1) ∧
      (∀ i ∈ [c3Item], i.name.isSome → i.name = some "bar") ∧
      (∀ fdid, c3Ctx.defMap 5 = some (.fnD fdid) →
        ∃ it, [c3Item] = [it] ∧ it.name = some "bar")) := by
  have hn : ∀ i ∈ stagingAll SessionState.empty, i.name = none := by
    intro i hi
    simp [stagingAll, SessionState.empty] at hi
  exact ⟨hn, rfl, c3_rename_applied c3Ctx 2 5 "bar" SessionState.empty
    [c3Item] c3St hn rfl⟩

theorem recordExternFqn_allCrateImpls (ctx : Ctx) (st : SessionState)
    (did : DefId) (kind : TypeKind) :
    (recordExternFqn ctx st did kind).allCrateImpls = st.allCrateImpls := by
  unfold recordExternFqn
  split_ifs <;> rfl

theorem recordExternFqn_inlined (ctx : Ctx) (st : SessionState)
    (did : DefId) (kind : TypeKind) :
    (recordExternFqn ctx st did kind).renderinfo.inlined =
      st.renderinfo.inlined := by
  unfold recordExternFqn
  split_ifs <;> rfl

/-- C2 (amended): line 119 of the source inserts every successfully inlined
definition into the impl-inlined set, so inlining a named top-level item
does make its identity a member of the set — contrary to the claim.  What
survives is the intended consequence: the set never suppresses re-inlining
of named top-level kinds, since `try_inline_def` never consults it — a
second call on the same definition succeeds again and again produces an
item carrying the definition's name. -/
theorem c2_reinline_still_works (ctx : Ctx) (f : Nat) (d : Def)
    (st : SessionState) (items : List Item) (st₁ : SessionState)
    (hkind : isNamedTopLevel d = true)
    (h1 : tryInlineDef ctx f d st = .ok (some items, st₁)) :
    d.defId ∈ st₁.renderinfo.inlined ∧
    ∃ (items₂ : List Item) (st₂ : SessionState),
      tryInlineDef ctx f d st₁ = .ok (some items₂, st₂) ∧
      ∃ i ∈ items₂, i.name = some (ctx.itemName d.defId) := by
  cases f with
  | zero => cases d <;> simp [tryInlineDef] at h1
  | succ f =>
      cases d with
      | traitD tdid =>
          rw [tryInlineDef] at h1
          have hsnd := congrArg Prod.snd (exc_ok_inj h1)
          simp only [finishInline] at hsnd
          refine ⟨?_, ?_⟩
          · rw [← hsnd]
            exact (markInlined_mem _ _ _).mpr (Or.inl rfl)
          · exact ⟨_, _, by rw [tryInlineDef]; rfl,
              by exact ⟨_, List.mem_append_right _
                (List.mem_singleton_self _), rfl⟩⟩
      | fnD fdid =>
          rw [tryInlineDef] at h1
          cases hfn : buildExternalFunction ctx fdid with
          | error e => rw [hfn] at h1; cases h1
          | ok fn =>
              rw [hfn] at h1
              have hsnd := congrArg Prod.snd (exc_ok_inj h1)
              simp only [finishInline] at hsnd
              refine ⟨?_, ?_⟩
              · rw [← hsnd]
                exact (markInlined_mem _ _ _).mpr (Or.inl rfl)
              · exact ⟨_, _, by rw [tryInlineDef, hfn]; rfl,
                  by exact ⟨_, List.mem_append_right _
                    (List.mem_singleton_self _), rfl⟩⟩
      | structD sdid =>
          rw [tryInlineDef] at h1
          by_cases hts : ctx.tupleStructCtor sdid = true
          · rw [if_pos hts] at h1
            have h3 := congrArg Prod.fst (exc_ok_inj h1)
            cases h3
          · rw [if_neg hts] at h1
            simp only [] at h1
            cases hbi : buildImpls ctx f sdid
                (recordExternFqn ctx st sdid .typeStruct) with
            | error e => rw [hbi] at h1; simp [exc_bind_error] at h1
            | ok p =>
                obtain ⟨impls, stA⟩ := p
                rw [hbi] at h1
                simp only [exc_bind_ok] at h1
                have hsnd := congrArg Prod.snd (exc_ok_inj h1)
                simp only [finishInline] at hsnd
                have hmem : (Def.structD sdid).defId ∈
                    st₁.renderinfo.inlined := by
                  rw [← hsnd]
                  exact (markInlined_mem _ _ _).mpr (Or.inl rfl)
                refine ⟨hmem, ?_⟩
                have hkey : (alLookup (recordExternFqn ctx st₁ sdid
                    .typeStruct).allCrateImpls sdid.krate).isSome := by
                  rw [recordExternFqn_allCrateImpls, ← hsnd]
                  exact buildImpls_key ctx f sdid _ impls stA hbi
                have hinl : ∀ dd, dd ∈ stA.renderinfo.inlined →
                    dd ∈ (recordExternFqn ctx st₁ sdid
                      .typeStruct).renderinfo.inlined := by
                  intro dd hdd
                  rw [recordExternFqn_inlined, ← hsnd]
                  exact (markInlined_mem _ _ _).mpr (Or.inr hdd)
                obtain ⟨r₂, stB, hsec⟩ := buildImpls_second ctx f sdid
                  (recordExternFqn ctx st sdid .typeStruct) impls stA
                  (recordExternFqn ctx st₁ sdid .typeStruct) hbi hkey hinl
                exact ⟨_, _, by rw [tryInlineDef, if_neg hts]; simp only []; rw [hsec]; rfl,
                  by exact ⟨_, List.mem_append_right _
                    (List.mem_singleton_self _), rfl⟩⟩
      | tyAliasD adid =>
          rw [tryInlineDef] at h1
          simp only [] at h1
          cases hbi : buildImpls ctx f adid
              (recordExternFqn ctx st adid .typeTypedef) with
          | error e => rw [hbi] at h1; simp [exc_bind_error] at h1
          | ok p =>
              obtain ⟨impls, stA⟩ := p
              rw [hbi] at h1
              simp only [exc_bind_ok] at h1
              have hsnd := congrArg Prod.snd (exc_ok_inj h1)
              simp only [finishInline] at hsnd
              have hmem : (Def.tyAliasD adid).defId ∈
                  st₁.renderinfo.inlined := by
                rw [← hsnd]
                exact (markInlined_mem _ _ _).mpr (Or.inl rfl)
              refine ⟨hmem, ?_⟩
              have hkey : (alLookup (recordExternFqn ctx st₁ adid
                  .typeTypedef).allCrateImpls adid.krate).isSome := by
                rw [recordExternFqn_allCrateImpls, ← hsnd]
                exact buildImpls_key ctx f adid _ impls stA hbi
              have hinl : ∀ dd, dd ∈ stA.renderinfo.inlined →
                  dd ∈ (recordExternFqn ctx st₁ adid
                    .typeTypedef).renderinfo.inlined := by
                intro dd hdd
                rw [recordExternFqn_inlined, ← hsnd]
                exact (markInlined_mem _ _ _).mpr (Or.inr hdd)
              obtain ⟨r₂, stB, hsec⟩ := buildImpls_second ctx f adid
                (recordExternFqn ctx st adid .typeTypedef) impls stA
                (recordExternFqn ctx st₁ adid .typeTypedef) hbi hkey hinl
              exact ⟨_, _, by rw [tryInlineDef]; simp only []; rw [hsec]; rfl,
                by exact ⟨_, List.mem_append_right _
                  (List.mem_singleton_self _), rfl⟩⟩
      | enumD edid =>
          rw [tryInlineDef] at h1
          simp only [] at h1
          cases hbi : buildImpls ctx f edid
              (recordExternFqn ctx st edid .typeEnum) with
          | error e => rw [hbi] at h1; simp [exc_bind_error] at h1
          | ok p =>
              obtain ⟨impls, stA⟩ := p
              rw [hbi] at h1
              simp only [exc_bind_ok] at h1
              have hsnd := congrArg Prod.snd (exc_ok_inj h1)
              simp only [finishInline] at hsnd
              have hmem : (Def.enumD edid).defId ∈
                  st₁.renderinfo.inlined := by
                rw [← hsnd]
                exact (markInlined_mem _ _ _).mpr (Or.inl rfl)
              refine ⟨hmem, ?_⟩
              have hkey : (alLookup (recordExternFqn ctx st₁ edid
                  .typeEnum).allCrateImpls edid.krate).isSome := by
                rw [recordExternFqn_allCrateImpls, ← hsnd]
                exact buildImpls_key ctx f edid _ impls stA hbi
              have hinl : ∀ dd, dd ∈ stA.renderinfo.inlined →
                  dd ∈ (recordExternFqn ctx st₁ edid
                    .typeEnum).renderinfo.inlined := by
                intro dd hdd
                rw [recordExternFqn_inlined, ← hsnd]
                exact (markInlined_mem _ _ _).mpr (Or.inr hdd)
              obtain ⟨r₂, stB, hsec⟩ := buildImpls_second ctx f edid
                (recordExternFqn ctx st edid .typeEnum) impls stA
                (recordExternFqn ctx st₁ edid .typeEnum) hbi hkey hinl
              exact ⟨_, _, by rw [tryInlineDef]; simp only []; rw [hsec]; rfl,
                by exact ⟨_, List.mem_append_right _
                  (List.mem_singleton_self _), rfl⟩⟩
      | variantD vdid => simp [isNamedTopLevel] at hkind
      | modD mdid => simp [isNamedTopLevel] at hkind
      | staticD sdid mtbl =>
          rw [tryInlineDef] at h1
          have hsnd := congrArg Prod.snd (exc_ok_inj h1)
          simp only [finishInline] at hsnd
          refine ⟨?_, ?_⟩
          · rw [← hsnd]
            exact (markInlined_mem _ _ _).mpr (Or.inl rfl)
          · exact ⟨_, _, by rw [tryInlineDef]; rfl,
              by exact ⟨_, List.mem_append_right _
                (List.mem_singleton_self _), rfl⟩⟩
      | constD cdid =>
          rw [tryInlineDef] at h1
          cases hc : buildConst ctx cdid with
          | error e => rw [hc] at h1; cases h1
          | ok c =>
              rw [hc] at h1
              have hsnd := congrArg Prod.snd (exc_ok_inj h1)
              simp only [finishInline] at hsnd
              refine ⟨?_, ?_⟩
              · rw [← hsnd]
                exact (markInlined_mem _ _ _).mpr (Or.inl rfl)
              · exact ⟨_, _, by rw [tryInlineDef, hc]; rfl,
                  by exact ⟨_, List.mem_append_right _
                    (List.mem_singleton_self _), rfl⟩⟩
      | associatedConstD cdid => simp [isNamedTopLevel] at hkind
      | foreignModD fdid => simp [isNamedTopLevel] at hkind
      | otherD odid => simp [isNamedTopLevel] at hkind

/-- C2 counterexample: inlining the external function `⟨1,20⟩` (a named
top-level item) DOES insert its identity into the session's
impl-inlined-set — line 119 of the source marks every successfully inlined
definition, not only impl identities. -/
theorem c2_reinline_still_works_counterexample :
    tryInlineDef c3Ctx 2 (.fnD ⟨1, 20⟩) SessionState.empty =
      .ok (some [c2Item], c3St) ∧
    (⟨1, 20⟩ : DefId) ∈ c3St.renderinfo.inlined :=
  ⟨rfl, by decide⟩

theorem c2_reinline_still_works_witness :
    isNamedTopLevel (.fnD ⟨1, 20⟩) = true ∧
    tryInlineDef c3Ctx 2 (.fnD ⟨1, 20⟩) SessionState.empty =
      .ok (some [c2Item], c3St) ∧
    ((Def.fnD ⟨1, 20⟩).defId ∈ c3St.renderinfo.inlined ∧
      ∃ (items₂ : List Item) (st₂ : SessionState),
        tryInlineDef c3Ctx 2 (.fnD ⟨1, 20⟩) c3St = .ok (some items₂, st₂) ∧
        ∃ i ∈ items₂, i.name = some (c3Ctx.itemName (Def.fnD ⟨1, 20⟩).defId)) :=
  ⟨by decide, rfl,
    c2_reinline_still_works c3Ctx 2 (.fnD ⟨1, 20⟩) SessionState.empty
      [c2Item] c3St (by decide) rfl⟩

theorem c7_staging_removal_witness :
    buildImpls baseCtx 3 ⟨1, 10⟩ SessionState.empty = .ok ([], c6St1) ∧
    ∃ (inh : List Item) (stMid : SessionState) (lMid : List Item),
      alLookup stMid.allCrateImpls (⟨1, 10⟩ : DefId).krate = some lMid ∧
      ([] : List Item) = inh ++
        (lMid.filter (harvestPred ⟨1, 10⟩)).reverse ∧
      c6St1 = { stMid with
          allCrateImpls := alInsert stMid.allCrateImpls
            (⟨1, 10⟩ : DefId).krate
            ((harvestStep (harvestPred ⟨1, 10⟩) lMid.length lMid []).1) } ∧
      (harvestStep (harvestPred ⟨1, 10⟩) lMid.length lMid []).1.Perm
        (lMid.filter (fun x => !harvestPred ⟨1, 10⟩ x)) ∧
      (∀ x ∈ lMid, harvestPred ⟨1, 10⟩ x = true → x ∈ ([] : List Item)) :=
  ⟨rfl, c7_staging_removal baseCtx 2 ⟨1, 10⟩ SessionState.empty c6St1 [] rfl⟩
